import Mathlib

/-!
# go-jira create-metadata helpers (`metaissue.go`)

A shallow embedding of `IssueService.GetIssueTypeMetaWithOptions`,
`MetaProject.GetIssueTypeWithName`, `MetaIssueType.GetMandatoryFields`,
`MetaIssueType.GetAllFields` and `MetaIssueType.CheckCompleteAndAvailable`,
followed by the properties proved about them.

Modelling conventions.

* A Go map is an association list with pairwise distinct keys. The order in
  which a `range` loop over `t.Fields` visits the keys is an argument of the
  functions whose names end in `In`; statements about "every iteration order"
  quantify over the permutations of the keys (`RangeOrder`). The functions that
  bear the names of the source visit the keys in the order of the list.
* A Go `(value, error)` result of a function that returns either one or the
  other is an `Except`; the `(bool, error)` result of
  `CheckCompleteAndAvailable` is kept as a pair, the error being `none` for `nil`.
  A call that may also end in a run-time panic has an `Outcome`.
* A Go string is a Lean `String`, a sequence of Unicode code points.
-/

namespace Jira

/-! ## Decoded JSON and the path-addressable container -/

/-- A decoded JSON value, the dynamic content of an `interface{}` held by a
`tcontainer.MarshalMap`. -/
inductive JValue where
  | null : JValue
  | bool (b : Bool) : JValue
  | num (n : Int) : JValue
  | str (s : String) : JValue
  | arr (items : List JValue) : JValue
  | obj (entries : List (String × JValue)) : JValue

/-- The container `tcontainer.MarshalMap`, a `map[string]interface{}`. -/
abbrev MarshalMap := List (String × JValue)

/-- The errors the functions of `metaissue.go` return. -/
inductive Error where
  /-- A path accessor found no value at `path` (`KeyNotFound`). -/
  | keyNotFound (path : String) : Error
  /-- A path accessor found a value of another type at `path` (`TypeMismatch`). -/
  | typeMismatch (path : String) : Error
  /-- `fmt.Errorf("IssueType with name %s not found", name)`. -/
  | issueTypeNotFound (name : String) : Error
  /-- `fmt.Errorf("required field not found in provided jira.fields. Required are: %#v", requiredFields)`. -/
  | requiredFieldNotFound (requiredFields : List String) : Error
  /-- `fmt.Errorf("fields in jira.fields are not available in jira. Available are: %#v", availableFields)`. -/
  | fieldsNotAvailable (availableFields : List String) : Error
  /-- An error of the HTTP exchange: of `NewRequest`, of `query.Values` or of
  `client.Do`, the decoding of the response body included. -/
  | transport (msg : String) : Error
  deriving DecidableEq, Repr

/-- The kinds of error a caller tells apart. -/
inductive ErrorKind where
  | decode : ErrorKind
  | notFound : ErrorKind
  | missingRequiredFields : ErrorKind
  | unknownFields : ErrorKind
  | transport : ErrorKind
  deriving DecidableEq, Repr

/-- The kind of an error: both failures of a path accessor are decode errors. -/
def Error.kind : Error → ErrorKind
  | Error.keyNotFound _ => ErrorKind.decode
  | Error.typeMismatch _ => ErrorKind.decode
  | Error.issueTypeNotFound _ => ErrorKind.notFound
  | Error.requiredFieldNotFound _ => ErrorKind.missingRequiredFields
  | Error.fieldsNotAvailable _ => ErrorKind.unknownFields
  | Error.transport _ => ErrorKind.transport

/-- How a call ends: with a value, with an error returned to the caller, or with
a run-time panic that returns nothing. -/
inductive Outcome (α : Type) where
  | ok (value : α) : Outcome α
  | error (err : Error) : Outcome α
  | panic : Outcome α

/-- Map index `m[k]` with the comma-ok result: the value stored under `k`. -/
def assocGet {β : Type} (k : String) : List (String × β) → Option β
  | [] => none
  | (k', v) :: rest => if k' = k then some v else assocGet k rest

/-- Map assignment `m[k] = v`: the entry of `k` is replaced where it stands, a
new key is added. -/
def assocSet {β : Type} (k : String) (v : β) : List (String × β) → List (String × β)
  | [] => [(k, v)]
  | (k', v') :: rest => if k' = k then (k, v) :: rest else (k', v') :: assocSet k v rest

/-- The keys of a map, in iteration order. -/
def assocKeys {β : Type} (m : List (String × β)) : List String := m.map Prod.fst

/-- The values of a map, in iteration order. -/
def assocValues {β : Type} (m : List (String × β)) : List β := m.map Prod.snd

/-- Cut a path at every `/`: `current` is the segment being read, reversed. -/
def splitPathAux : List Char → List Char → List String
  | [], current => [String.mk current.reverse]
  | c :: rest, current =>
    if c = '/' then String.mk current.reverse :: splitPathAux rest []
    else splitPathAux rest (c :: current)

/-- The segments of a slash-delimited path. -/
def splitPath (path : String) : List String := splitPathAux path.data []

/-- Descend from `v` along the segments of a path, through nested objects. -/
def resolvePath : List String → JValue → Option JValue
  | [], v => some v
  | seg :: rest, JValue.obj entries =>
    match assocGet seg entries with
    | some v => resolvePath rest v
    | none => none
  | _ :: _, _ => none

/-- Modelled from the spec: the accessors of the external container
`tcontainer.MarshalMap` are not part of the sources. `Value` looks a value up
by a path, "a slash-delimited sequence of keys descending into nested objects".
The array indices of the library's path syntax, written in square brackets,
are not described there and not modelled. -/
def MarshalMap.Value (m : MarshalMap) (path : String) : Option JValue :=
  resolvePath (splitPath path) (JValue.obj m)

/-- Modelled from the spec: `getBool(path)`, failing with `KeyNotFound` when a
path segment is absent and with `TypeMismatch` when the value is no boolean. -/
def MarshalMap.Bool (m : MarshalMap) (path : String) : Except Error Bool :=
  match m.Value path with
  | none => Except.error (Error.keyNotFound path)
  | some (JValue.bool b) => Except.ok b
  | some _ => Except.error (Error.typeMismatch path)

/-- Modelled from the spec: `getString(path)`, failing with `KeyNotFound` when a
path segment is absent and with `TypeMismatch` when the value is no string. -/
def MarshalMap.String (m : MarshalMap) (path : String) : Except Error String :=
  match m.Value path with
  | none => Except.error (Error.keyNotFound path)
  | some (JValue.str s) => Except.ok s
  | some _ => Except.error (Error.typeMismatch path)

/-- The attribute `attr` of the blob stored under `key`: what a two-segment path
`key/attr` reaches. -/
def blobAttr (m : MarshalMap) (key attr : String) : Option JValue :=
  match assocGet key m with
  | some (JValue.obj entries) => assocGet attr entries
  | _ => none

/-! ## The records of `metaissue.go` -/

/-- The struct `IssueType`, declared outside `metaissue.go`: the attributes
`GetIssueTypeMetaWithOptions` and `GetIssueTypeWithName` read. -/
structure IssueType where
  Self : String
  ID : String
  Description : String
  IconURL : String
  Name : String
  Subtask : Bool
  deriving DecidableEq, Repr

/-- The struct `MetaProject`. `IssueTypes` holds the issue types the pointers of
the Go slice refer to; a nil pointer in the slice, on which the scan of
`GetIssueTypeWithName` would panic, is not modelled. -/
structure MetaProject where
  Self : String
  Id : String
  Key : String
  Name : String
  IssueTypes : List IssueType
  deriving DecidableEq, Repr

/-- The struct `MetaIssueType`. -/
structure MetaIssueType where
  Self : String
  Id : String
  Description : String
  IconUrl : String
  Name : String
  Subtasks : Bool
  Expand : String
  Fields : MarshalMap

/-! ## `GetMandatoryFields`, `GetAllFields`, `CheckCompleteAndAvailable` -/

/-- The loop of `GetMandatoryFields` over the keys still to visit, `ret` being
the map built so far. -/
def mandatoryLoop (fields : MarshalMap) : List String → List (String × String) →
    Except Error (List (String × String))
  | [], ret => Except.ok ret
  | key :: rest, ret =>
    match fields.Bool (key ++ "/required") with
    | Except.error err => Except.error err
    | Except.ok required =>
      if required then
        match fields.String (key ++ "/name") with
        | Except.error err => Except.error err
        | Except.ok name => mandatoryLoop fields rest (assocSet name key ret)
      else mandatoryLoop fields rest ret

/-- `MetaIssueType.GetMandatoryFields` in a run in which `for key := range t.Fields`
visits the keys in the order `order`. -/
def GetMandatoryFieldsIn (t : MetaIssueType) (order : List String) :
    Except Error (List (String × String)) :=
  mandatoryLoop t.Fields order []

/-- `MetaIssueType.GetMandatoryFields`: the map from the name of every required
field to its key, the keys being visited in the order in which `t.Fields` lists them. -/
def GetMandatoryFields (t : MetaIssueType) : Except Error (List (String × String)) :=
  GetMandatoryFieldsIn t (assocKeys t.Fields)

/-- The loop of `GetAllFields` over the keys still to visit. -/
def allLoop (fields : MarshalMap) : List String → List (String × String) →
    Except Error (List (String × String))
  | [], ret => Except.ok ret
  | key :: rest, ret =>
    match fields.String (key ++ "/name") with
    | Except.error err => Except.error err
    | Except.ok name => allLoop fields rest (assocSet name key ret)

/-- `MetaIssueType.GetAllFields` in a run in which `for key := range t.Fields`
visits the keys in the order `order`. -/
def GetAllFieldsIn (t : MetaIssueType) (order : List String) :
    Except Error (List (String × String)) :=
  allLoop t.Fields order []

/-- `MetaIssueType.GetAllFields`: the map from the name of every field to its key,
the keys being visited in the order in which `t.Fields` lists them. -/
def GetAllFields (t : MetaIssueType) : Except Error (List (String × String)) :=
  GetAllFieldsIn t (assocKeys t.Fields)

/-- The first loop of `CheckCompleteAndAvailable`: the keys of `mandatory` still
to visit are looked up in `config`; on the first one that is absent the names
of the whole map `mandatory` are collected into the error. -/
def checkMandatory (mandatory config : List (String × String)) : List String → Option Error
  | [] => none
  | key :: rest =>
    match assocGet key config with
    | none => some (Error.requiredFieldNotFound (assocKeys mandatory))
    | some _ => checkMandatory mandatory config rest

/-- The second loop of `CheckCompleteAndAvailable`: the keys of `config` still to
visit are looked up in `all`; on the first one that is absent the names of the
whole map `all` are collected into the error. -/
def checkAvailable (all : List (String × String)) : List String → Option Error
  | [] => none
  | key :: rest =>
    match assocGet key all with
    | none => some (Error.fieldsNotAvailable (assocKeys all))
    | some _ => checkAvailable all rest

/-- `MetaIssueType.CheckCompleteAndAvailable` in a run in which the loop of
`GetMandatoryFields` visits the keys of `t.Fields` in the order `order₁` and the
loop of `GetAllFields` visits them in the order `order₂`. -/
def CheckCompleteAndAvailableIn (t : MetaIssueType) (config : List (String × String))
    (order₁ order₂ : List String) : Bool × Option Error :=
  match GetMandatoryFieldsIn t order₁ with
  | Except.error err => (false, some err)
  | Except.ok mandatory =>
    match GetAllFieldsIn t order₂ with
    | Except.error err => (false, some err)
    | Except.ok all =>
      match checkMandatory mandatory config (assocKeys mandatory) with
      | some err => (false, some err)
      | none =>
        match checkAvailable all (assocKeys config) with
        | some err => (false, some err)
        | none => (true, none)

/-- `MetaIssueType.CheckCompleteAndAvailable`, both loops over `t.Fields` visiting
the keys in the order in which `t.Fields` lists them. -/
def CheckCompleteAndAvailable (t : MetaIssueType) (config : List (String × String)) :
    Bool × Option Error :=
  CheckCompleteAndAvailableIn t config (assocKeys t.Fields) (assocKeys t.Fields)

/-- What the code reads as the `required` flag of the field `key`: the read
`t.Fields.Bool(key + "/required")` yields `b`. -/
def ReadRequired (t : MetaIssueType) (key : String) (b : Bool) : Prop :=
  t.Fields.Bool (key ++ "/required") = Except.ok b

/-- What the code reads as the name of the field `key`: the read
`t.Fields.String(key + "/name")` yields `n`. -/
def ReadName (t : MetaIssueType) (key : String) (n : String) : Prop :=
  t.Fields.String (key ++ "/name") = Except.ok n

/-- The field blob stored under `key` has the boolean `required` attribute `b`. -/
def FieldRequired (t : MetaIssueType) (key : String) (b : Bool) : Prop :=
  blobAttr t.Fields key "required" = some (JValue.bool b)

/-- The field blob stored under `key` has the string `name` attribute `n`. -/
def FieldName (t : MetaIssueType) (key : String) (n : String) : Prop :=
  blobAttr t.Fields key "name" = some (JValue.str n)

/-- No field key holds a character to which the path syntax of the container
gives a meaning: the separator `/`, and the bracket `[` that opens an array
index. For such keys the path `key/attr` can only mean the attribute `attr` of
the blob stored under `key`. -/
def PlainKeys (t : MetaIssueType) : Prop :=
  ∀ key ∈ assocKeys t.Fields, '/' ∉ key.data ∧ '[' ∉ key.data

/-- The loop of `GetAllFields` as a state transformer: next to its result it
returns the field map as the loop leaves it. The body reads `t.Fields` and
assigns to the local map `ret` only. -/
def allLoopRun (fields : MarshalMap) : List String → List (String × String) →
    Except Error (List (String × String)) × MarshalMap
  | [], ret => (Except.ok ret, fields)
  | key :: rest, ret =>
    match fields.String (key ++ "/name") with
    | Except.error err => (Except.error err, fields)
    | Except.ok name => allLoopRun fields rest (assocSet name key ret)

/-- `MetaIssueType.GetAllFields` in the iteration order `order`, with `t.Fields` as
the call leaves it. -/
def GetAllFieldsRun (t : MetaIssueType) (order : List String) :
    Except Error (List (String × String)) × MarshalMap :=
  allLoopRun t.Fields order []

/-- An order in which a `range` loop may visit the keys of `t.Fields`. -/
def RangeOrder (t : MetaIssueType) (order : List String) : Prop :=
  order.Perm (assocKeys t.Fields)

/-! ## `GetIssueTypeWithName`

`strings.ToLower` and `strings.EqualFold` belong to the Go standard library. They
are modelled on code points, from the case tables of package `unicode`. The
tables below are exact for U+0000..U+007F and for the code points whose case
orbit meets that range, U+0130, U+0131, U+017F and U+212A; every other code
point is left without a case mapping. -/

/-- `unicode.ToLower`: the simple lower-case mapping of a code point, exact on
U+0000..U+007F, U+0130, U+0131, U+017F and U+212A. The cased letters outside
that set, which Go maps as well, are left unchanged here. -/
def unicodeToLower (r : Nat) : Nat :=
  if 0x41 ≤ r ∧ r ≤ 0x5A then r + 0x20
  else if r = 0x130 then 0x69
  else if r = 0x212A then 0x6B
  else r

/-- `unicode.SimpleFold`: the next code point of the case orbit of `r`, wrapping
around to the smallest one, exact on the orbits that meet U+0000..U+007F and
on U+0130 and U+0131. The orbits with more than two members are `K k U+212A`
and `S s U+017F`; U+0130 and U+0131 are alone in theirs. The orbits of the
other cased letters are not in the table. -/
def SimpleFold (r : Nat) : Nat :=
  if r = 0x4B then 0x6B
  else if r = 0x6B then 0x212A
  else if r = 0x212A then 0x4B
  else if r = 0x53 then 0x73
  else if r = 0x73 then 0x17F
  else if r = 0x17F then 0x53
  else if 0x41 ≤ r ∧ r ≤ 0x5A then r + 0x20
  else if 0x61 ≤ r ∧ r ≤ 0x7A then r - 0x20
  else r

/-- The lower-case ASCII member of the case orbit of `r` where there is one, `r`
itself otherwise: the representative by which the case orbits of the tables
above are told apart. -/
def foldKey (r : Nat) : Nat :=
  if r = 0x212A then 0x6B
  else if r = 0x17F then 0x73
  else if 0x41 ≤ r ∧ r ≤ 0x5A then r + 0x20
  else r

/-- A string of ASCII code points. -/
def IsASCII (s : String) : Prop := ∀ c ∈ s.data, c.toNat < 0x80

/-- The walk `for r != sr && r < tr { r = unicode.SimpleFold(r) }` of
`strings.EqualFold`. A case orbit has at most four members, so the walk is over
after four steps; `steps` counts the steps left. -/
def foldWalk (sr tr : Nat) : Nat → Nat → Nat
  | 0, r => r
  | steps + 1, r => if r ≠ sr ∧ r < tr then foldWalk sr tr steps (SimpleFold r) else r

/-- One round of the loop of `strings.EqualFold`: whether the code points `s` and
`t` are equal under simple case folding. -/
def equalFoldRune (s t : Nat) : Bool :=
  if t = s then true
  else
    let sr := min s t
    let tr := max s t
    if tr < 0x80 then decide (0x41 ≤ sr ∧ sr ≤ 0x5A ∧ tr = sr + 0x20)
    else decide (foldWalk sr tr 4 (SimpleFold sr) = tr)

/-- The loop of `strings.EqualFold` over the code points of both strings. -/
def equalFoldRunes : List Char → List Char → Bool
  | [], [] => true
  | a :: s, b :: t => equalFoldRune a.toNat b.toNat && equalFoldRunes s t
  | _, _ => false

/-- `strings.EqualFold`: equality of two strings under simple Unicode case folding. -/
def EqualFold (s t : String) : Bool := equalFoldRunes s.data t.data

/-- `strings.ToLower`: every code point mapped by `unicode.ToLower`. -/
def ToLower (s : String) : String :=
  String.mk (s.data.map (fun c => Char.ofNat (unicodeToLower c.toNat)))

/-- The scan of `GetIssueTypeWithName` over the issue types still to visit. -/
def findIssueType (name : String) : List IssueType → Except Error IssueType
  | [] => Except.error (Error.issueTypeNotFound name)
  | m :: rest =>
    if EqualFold m.Name (ToLower name) then Except.ok m else findIssueType name rest

/-- `MetaProject.GetIssueTypeWithName`. -/
def GetIssueTypeWithName (p : MetaProject) (name : String) : Except Error IssueType :=
  findIssueType name p.IssueTypes

/-- The message of an error of `GetIssueTypeWithName`,
`"IssueType with name %s not found"`. -/
def issueTypeNotFoundMessage (name : String) : String :=
  "IssueType with name " ++ name ++ " not found"

/-! ## `GetIssueTypeMetaWithOptions` -/

/-- The loop `for _, field := range content.Values` of
`GetIssueTypeMetaWithOptions`, `fields` being `meta.Fields` as built so far. The
unchecked type assertion `field["fieldId"].(string)` panics when the blob has no
`fieldId` or one that is no string; `none` stands for that panic. -/
def rekeyLoop : List MarshalMap → MarshalMap → Option MarshalMap
  | [], fields => some fields
  | field :: rest, fields =>
    match assocGet "fieldId" field with
    | some (JValue.str id) => rekeyLoop rest (assocSet id (JValue.obj field) fields)
    | _ => none

/-- The record `meta` of `GetIssueTypeMetaWithOptions`: the identity of the issue
type is copied, `Expand` keeps its zero value, `Fields` is the map built from
the response. -/
def metaFor (issueType : IssueType) (fields : MarshalMap) : MetaIssueType :=
  { Self := issueType.Self
    Id := issueType.ID
    Description := issueType.Description
    IconUrl := issueType.IconURL
    Name := issueType.Name
    Subtasks := issueType.Subtask
    Expand := ""
    Fields := fields }

/-- `IssueService.GetIssueTypeMetaWithOptions`. The HTTP exchange is the work of
the injected client: `response` is its outcome, either the error of building
or sending the request or of decoding the body, or the decoded
`issueTypeMetaResp.Values`. The project key and the query options only shape the
request. -/
def GetIssueTypeMetaWithOptions (issueType : IssueType)
    (response : Except Error (List MarshalMap)) : Outcome MetaIssueType :=
  match response with
  | Except.error err => Outcome.error err
  | Except.ok values =>
    match rekeyLoop values [] with
    | some fields => Outcome.ok (metaFor issueType fields)
    | none => Outcome.panic

/-- The `fieldId` attribute of a blob of the response, when it is a string. -/
def fieldIdOf (field : MarshalMap) : Option String :=
  match assocGet "fieldId" field with
  | some (JValue.str id) => some id
  | _ => none

/-- The name the code reads for the field `key`, the empty string when the read
fails. -/
def nameOf (t : MetaIssueType) (key : String) : String :=
  match t.Fields.String (key ++ "/name") with
  | Except.ok n => n
  | Except.error _ => ""

/-! ## Sample data -/

/-- A field blob with a `required` flag and a `name`. -/
def fieldBlob (required : Bool) (name : String) : JValue :=
  JValue.obj [("required", JValue.bool required), ("name", JValue.str name)]

/-- An issue type with the given field map and no other content. -/
def metaOf (fields : MarshalMap) : MetaIssueType :=
  { Self := "", Id := "", Description := "", IconUrl := "", Name := "", Subtasks := false,
    Expand := "", Fields := fields }

/-- The field metadata of the scenarios: `f1` is the required field `Summary`,
`f2` the optional field `Labels`. -/
def sampleMeta : MetaIssueType :=
  metaOf [("f1", fieldBlob true "Summary"), ("f2", fieldBlob false "Labels")]

/-- The field of the documentation of `GetMandatoryFields`: the required custom
field `customfield_10806`, named `Epic Link`. -/
def epicMeta : MetaIssueType :=
  metaOf [("customfield_10806", JValue.obj [("required", JValue.bool true),
    ("schema", JValue.obj [("type", JValue.str "any"),
      ("custom", JValue.str "com.pyxis.greenhopper.jira:gh-epic-link"),
      ("customId", JValue.num 10806)]),
    ("name", JValue.str "Epic Link"), ("hasDefaultValue", JValue.bool false),
    ("operations", JValue.arr [JValue.str "set"])])]

/-- Two fields that share the name `Summary`: `f1` is required, `f2` is not. -/
def sharedNameMeta : MetaIssueType :=
  metaOf [("f1", fieldBlob true "Summary"), ("f2", fieldBlob false "Summary")]

/-- Two required fields, `Summary` and `Description`. -/
def twoRequiredMeta : MetaIssueType :=
  metaOf [("f1", fieldBlob true "Summary"), ("f2", fieldBlob true "Description")]

/-- A required field `Summary` and an optional field `f2` whose blob has no `name`. -/
def optionalNamelessMeta : MetaIssueType :=
  metaOf [("f1", fieldBlob true "Summary"), ("f2", JValue.obj [("required", JValue.bool false)])]

/-- A field whose blob has a `name` and no `required` attribute. -/
def noRequiredMeta : MetaIssueType :=
  metaOf [("f1", JValue.obj [("name", JValue.str "Summary")]), ("f2", fieldBlob false "Labels")]

/-- A required field whose blob has no `name`. -/
def requiredNamelessMeta : MetaIssueType :=
  metaOf [("f1", JValue.obj [("required", JValue.bool true)]), ("f2", fieldBlob false "Labels")]

/-- A single field whose blob is empty: it has neither `required` nor `name`. -/
def emptyBlobMeta : MetaIssueType :=
  metaOf [("f1", JValue.obj [])]

/-- A field whose `required` attribute is a string and no boolean. -/
def mistypedRequiredMeta : MetaIssueType :=
  metaOf [("f1", JValue.obj [("required", JValue.str "true"), ("name", JValue.str "Summary")])]

/-- A required field whose key holds the path separator. -/
def slashKeyMeta : MetaIssueType :=
  metaOf [("cf/10806", fieldBlob true "Epic Link")]

/-- Two optional fields with different names; the key of the first holds the
path separator. -/
def slashTwoMeta : MetaIssueType :=
  metaOf [("cf/10806", fieldBlob false "Epic Link"), ("labels", fieldBlob false "Labels")]

/-- The field `parent/child` has a name and no `required` attribute; the blob of
the field `parent` holds an entry `child` with a `required` attribute of its own. -/
def aliasMeta : MetaIssueType :=
  metaOf [("parent", JValue.obj [("required", JValue.bool false), ("name", JValue.str "Parent"),
      ("child", JValue.obj [("required", JValue.bool false)])]),
    ("parent/child", JValue.obj [("name", JValue.str "Child")])]

/-- A blob of the field-metadata response, with its `fieldId`. -/
def responseBlob (fieldId : String) (required : Bool) (name : String) : MarshalMap :=
  [("fieldId", JValue.str fieldId), ("required", JValue.bool required),
    ("name", JValue.str name)]

/-- A decoded response in which the field id `summary` occurs twice. -/
def sampleValues : List MarshalMap :=
  [responseBlob "summary" true "Summary", responseBlob "labels" false "Labels",
    responseBlob "summary" false "Short text"]

/-- The issue type `Help` of the example program. -/
def helpIssueType : IssueType :=
  { Self := "https://jira.example/rest/api/2/issuetype/10002", ID := "10002",
    Description := "For general IT problems and questions.",
    IconURL := "https://jira.example/images/icons/help.png", Name := "Help", Subtask := false }

/-- An issue type with the given id and name and no other content. -/
def issueTypeOf (id name : String) : IssueType :=
  { Self := "", ID := id, Description := "", IconURL := "", Name := name, Subtask := false }

/-- A project with the given issue types and no other content. -/
def projectOf (issueTypes : List IssueType) : MetaProject :=
  { Self := "", Id := "", Key := "PC", Name := "", IssueTypes := issueTypes }

end Jira

namespace Jira

/-! ## Association lists -/

theorem assocGet_isSome_iff {β : Type} (k : String) (m : List (String × β)) :
    (assocGet k m).isSome = true ↔ k ∈ assocKeys m := by
  induction m with
  | nil => simp [assocGet, assocKeys]
  | cons p rest ih =>
    obtain ⟨k', v⟩ := p
    by_cases h : k' = k
    · simp [assocGet, assocKeys, h]
    · have ih' : (assocGet k rest).isSome = true ↔ k ∈ List.map Prod.fst rest := ih
      simp [assocGet, assocKeys, h, ih', Ne.symm h]

theorem assocGet_eq_none_iff {β : Type} (k : String) (m : List (String × β)) :
    assocGet k m = none ↔ k ∉ assocKeys m := by
  rw [← assocGet_isSome_iff]
  cases assocGet k m <;> simp

theorem assocGet_assocSet {β : Type} (k k' : String) (v : β) (m : List (String × β)) :
    assocGet k' (assocSet k v m) = if k = k' then some v else assocGet k' m := by
  induction m with
  | nil => simp [assocGet, assocSet]
  | cons p rest ih =>
    obtain ⟨k₀, v₀⟩ := p
    by_cases h₀ : k₀ = k
    · subst h₀
      by_cases h : k₀ = k' <;> simp [assocGet, assocSet, h]
    · by_cases h : k = k'
      · subst h
        simp [assocGet, assocSet, h₀, ih]
      · by_cases h₁ : k₀ = k'
        · subst h₁
          simp [assocGet, assocSet, h₀, h]
        · simp [assocGet, assocSet, h₀, h₁, ih, h]

theorem assocKeys_assocSet {β : Type} (k k' : String) (v : β) (m : List (String × β)) :
    k' ∈ assocKeys (assocSet k v m) ↔ k' = k ∨ k' ∈ assocKeys m := by
  rw [← assocGet_isSome_iff, ← assocGet_isSome_iff, assocGet_assocSet]
  by_cases h : k = k'
  · simp [h]
  · simp [h, Ne.symm h]

theorem assocKeys_assocSet_nodup {β : Type} (k : String) (v : β) (m : List (String × β))
    (h : (assocKeys m).Nodup) : (assocKeys (assocSet k v m)).Nodup := by
  induction m with
  | nil => simp [assocSet, assocKeys]
  | cons p rest ih =>
    obtain ⟨k₀, v₀⟩ := p
    have hk : k₀ ∉ assocKeys rest ∧ (assocKeys rest).Nodup := by
      simpa [assocKeys] using h
    by_cases h₀ : k₀ = k
    · subst h₀
      simpa [assocSet, assocKeys] using h
    · have hnot : k₀ ∉ assocKeys (assocSet k v rest) := by
        rw [assocKeys_assocSet]
        simp [h₀, hk.1]
      have := ih hk.2
      simp only [assocSet, h₀, if_false, assocKeys, List.map_cons, List.nodup_cons]
      exact ⟨hnot, this⟩

theorem assocGet_eq_some_of_mem {β : Type} (k : String) (v : β) (m : List (String × β))
    (h : (assocKeys m).Nodup) (hm : (k, v) ∈ m) : assocGet k m = some v := by
  induction m with
  | nil => simp at hm
  | cons p rest ih =>
    obtain ⟨k₀, v₀⟩ := p
    have hk : k₀ ∉ assocKeys rest ∧ (assocKeys rest).Nodup := by
      simpa [assocKeys] using h
    rcases List.mem_cons.mp hm with heq | hrest
    · cases heq
      simp [assocGet]
    · have hne : k₀ ≠ k := by
        intro hEq
        apply hk.1
        rw [hEq]
        exact List.mem_map_of_mem Prod.fst hrest
      simp [assocGet, hne, ih hk.2 hrest]

theorem mem_of_assocGet_eq_some {β : Type} (k : String) (v : β) (m : List (String × β))
    (h : assocGet k m = some v) : (k, v) ∈ m := by
  induction m with
  | nil => simp [assocGet] at h
  | cons p rest ih =>
    obtain ⟨k₀, v₀⟩ := p
    by_cases h₀ : k₀ = k
    · simp [assocGet, h₀] at h
      simp [h₀, h]
    · simp [assocGet, h₀] at h
      exact List.mem_cons_of_mem _ (ih h)

/-! ## The loops over the field map -/

theorem allLoop_ok_iff (fields : MarshalMap) (keys : List String) (ret : List (String × String)) :
    (∃ m, allLoop fields keys ret = Except.ok m) ↔
      ∀ key ∈ keys, ∃ n, fields.String (key ++ "/name") = Except.ok n := by
  induction keys generalizing ret with
  | nil => simp [allLoop]
  | cons key rest ih =>
    cases hS : fields.String (key ++ "/name") with
    | error e => simp [allLoop, hS]
    | ok n => simp [allLoop, hS, ih]

theorem allLoop_spec (fields : MarshalMap) (keys : List String) (ret m : List (String × String))
    (h : allLoop fields keys ret = Except.ok m) :
    (∀ n, n ∈ assocKeys m ↔
        n ∈ assocKeys ret ∨ ∃ k ∈ keys, fields.String (k ++ "/name") = Except.ok n) ∧
    (∀ n k, assocGet n m = some k →
        assocGet n ret = some k ∨ (k ∈ keys ∧ fields.String (k ++ "/name") = Except.ok n)) ∧
    ((assocKeys ret).Nodup → (assocKeys m).Nodup) := by
  induction keys generalizing ret with
  | nil =>
    simp [allLoop] at h
    subst h
    simp
  | cons key rest ih =>
    cases hS : fields.String (key ++ "/name") with
    | error e => simp [allLoop, hS] at h
    | ok name =>
      simp only [allLoop, hS] at h
      obtain ⟨hkeys, hget, hnodup⟩ := ih _ h
      refine ⟨?_, ?_, ?_⟩
      · intro n
        rw [hkeys n, assocKeys_assocSet]
        constructor
        · rintro ((hn | hn) | ⟨k, hk, hkn⟩)
          · exact Or.inr ⟨key, List.mem_cons_self _ _, by rw [hS, hn]⟩
          · exact Or.inl hn
          · exact Or.inr ⟨k, List.mem_cons_of_mem _ hk, hkn⟩
        · rintro (hn | ⟨k, hk, hkn⟩)
          · exact Or.inl (Or.inr hn)
          · rcases List.mem_cons.mp hk with hEq | hk'
            · subst hEq
              rw [hS] at hkn
              cases hkn
              exact Or.inl (Or.inl rfl)
            · exact Or.inr ⟨k, hk', hkn⟩
      · intro n k hnk
        rcases hget n k hnk with hret | ⟨hk, hkn⟩
        · rw [assocGet_assocSet] at hret
          by_cases hEq : name = n
          · simp [hEq] at hret
            subst hret
            subst hEq
            exact Or.inr ⟨List.mem_cons_self _ _, hS⟩
          · simp [hEq] at hret
            exact Or.inl hret
        · exact Or.inr ⟨List.mem_cons_of_mem _ hk, hkn⟩
      · intro hnd
        exact hnodup (assocKeys_assocSet_nodup _ _ _ hnd)

theorem allLoop_get_unique (fields : MarshalMap) (keys : List String)
    (ret m : List (String × String)) (n k : String)
    (h : allLoop fields keys ret = Except.ok m)
    (huniq : ∀ k' ∈ keys, fields.String (k' ++ "/name") = Except.ok n → k' = k)
    (hk : (k ∈ keys ∧ fields.String (k ++ "/name") = Except.ok n) ∨ assocGet n ret = some k) :
    assocGet n m = some k := by
  induction keys generalizing ret with
  | nil =>
    simp [allLoop] at h
    subst h
    simpa using hk
  | cons key rest ih =>
    cases hS : fields.String (key ++ "/name") with
    | error e => simp [allLoop, hS] at h
    | ok name =>
      simp only [allLoop, hS] at h
      apply ih _ h (fun k' hk' hn => huniq k' (List.mem_cons_of_mem _ hk') hn)
      by_cases hEq : name = n
      · subst hEq
        have : key = k := huniq key (List.mem_cons_self _ _) hS
        subst this
        right
        simp [assocGet_assocSet]
      · rcases hk with ⟨hmem, hname⟩ | hret
        · rcases List.mem_cons.mp hmem with hkk | hrest
          · subst hkk
            rw [hS] at hname
            cases hname
            exact absurd rfl hEq
          · exact Or.inl ⟨hrest, hname⟩
        · right
          simp [assocGet_assocSet, hEq, hret]

theorem mandatoryLoop_ok (fields : MarshalMap) (keys : List String)
    (ret : List (String × String))
    (hreq : ∀ key ∈ keys, ∃ b, fields.Bool (key ++ "/required") = Except.ok b)
    (hname : ∀ key ∈ keys, fields.Bool (key ++ "/required") = Except.ok true →
      ∃ n, fields.String (key ++ "/name") = Except.ok n) :
    ∃ m, mandatoryLoop fields keys ret = Except.ok m := by
  induction keys generalizing ret with
  | nil => simp [mandatoryLoop]
  | cons key rest ih =>
    have ih' := fun ret => ih ret (fun k hk => hreq k (List.mem_cons_of_mem _ hk))
      (fun k hk => hname k (List.mem_cons_of_mem _ hk))
    obtain ⟨b, hb⟩ := hreq key (List.mem_cons_self _ _)
    cases b with
    | false => simpa [mandatoryLoop, hb] using ih' ret
    | true =>
      obtain ⟨n, hn⟩ := hname key (List.mem_cons_self _ _) hb
      simpa [mandatoryLoop, hb, hn] using ih' _

theorem mandatoryLoop_spec (fields : MarshalMap) (keys : List String)
    (ret m : List (String × String)) (h : mandatoryLoop fields keys ret = Except.ok m) :
    (∀ n, n ∈ assocKeys m ↔
        n ∈ assocKeys ret ∨ ∃ k ∈ keys, fields.Bool (k ++ "/required") = Except.ok true ∧
          fields.String (k ++ "/name") = Except.ok n) ∧
    (∀ n k, assocGet n m = some k →
        assocGet n ret = some k ∨ (k ∈ keys ∧ fields.Bool (k ++ "/required") = Except.ok true ∧
          fields.String (k ++ "/name") = Except.ok n)) ∧
    ((assocKeys ret).Nodup → (assocKeys m).Nodup) := by
  induction keys generalizing ret with
  | nil =>
    simp [mandatoryLoop] at h
    subst h
    simp
  | cons key rest ih =>
    cases hB : fields.Bool (key ++ "/required") with
    | error e => simp [mandatoryLoop, hB] at h
    | ok required =>
      cases required with
      | false =>
        simp only [mandatoryLoop, hB] at h
        obtain ⟨hkeys, hget, hnodup⟩ := ih _ h
        refine ⟨?_, ?_, hnodup⟩
        · intro n
          rw [hkeys n]
          constructor
          · rintro (hn | ⟨k, hk, hkb, hkn⟩)
            · exact Or.inl hn
            · exact Or.inr ⟨k, List.mem_cons_of_mem _ hk, hkb, hkn⟩
          · rintro (hn | ⟨k, hk, hkb, hkn⟩)
            · exact Or.inl hn
            · rcases List.mem_cons.mp hk with hEq | hk'
              · subst hEq
                rw [hB] at hkb
                cases hkb
              · exact Or.inr ⟨k, hk', hkb, hkn⟩
        · intro n k hnk
          rcases hget n k hnk with hret | ⟨hk, hkb, hkn⟩
          · exact Or.inl hret
          · exact Or.inr ⟨List.mem_cons_of_mem _ hk, hkb, hkn⟩
      | true =>
        cases hS : fields.String (key ++ "/name") with
        | error e => simp [mandatoryLoop, hB, hS] at h
        | ok name =>
          simp only [mandatoryLoop, hB, hS, if_true] at h
          obtain ⟨hkeys, hget, hnodup⟩ := ih _ h
          refine ⟨?_, ?_, ?_⟩
          · intro n
            rw [hkeys n, assocKeys_assocSet]
            constructor
            · rintro ((hn | hn) | ⟨k, hk, hkb, hkn⟩)
              · exact Or.inr ⟨key, List.mem_cons_self _ _, hB, by rw [hS, hn]⟩
              · exact Or.inl hn
              · exact Or.inr ⟨k, List.mem_cons_of_mem _ hk, hkb, hkn⟩
            · rintro (hn | ⟨k, hk, hkb, hkn⟩)
              · exact Or.inl (Or.inr hn)
              · rcases List.mem_cons.mp hk with hEq | hk'
                · subst hEq
                  rw [hS] at hkn
                  cases hkn
                  exact Or.inl (Or.inl rfl)
                · exact Or.inr ⟨k, hk', hkb, hkn⟩
          · intro n k hnk
            rcases hget n k hnk with hret | ⟨hk, hkb, hkn⟩
            · rw [assocGet_assocSet] at hret
              by_cases hEq : name = n
              · simp [hEq] at hret
                subst hret
                subst hEq
                exact Or.inr ⟨List.mem_cons_self _ _, hB, hS⟩
              · simp [hEq] at hret
                exact Or.inl hret
            · exact Or.inr ⟨List.mem_cons_of_mem _ hk, hkb, hkn⟩
          · intro hnd
            exact hnodup (assocKeys_assocSet_nodup _ _ _ hnd)

theorem checkMandatory_eq_none_iff (mandatory config : List (String × String))
    (keys : List String) :
    checkMandatory mandatory config keys = none ↔ ∀ k ∈ keys, k ∈ assocKeys config := by
  induction keys with
  | nil => simp [checkMandatory]
  | cons key rest ih =>
    cases hget : assocGet key config with
    | none =>
      have : key ∉ assocKeys config := (assocGet_eq_none_iff _ _).mp hget
      simp [checkMandatory, hget, this]
    | some v =>
      have : key ∈ assocKeys config := by
        rw [← assocGet_isSome_iff, hget]
        rfl
      simp [checkMandatory, hget, this, ih]

theorem checkMandatory_eq_some (mandatory config : List (String × String))
    (keys : List String) (err : Error) (h : checkMandatory mandatory config keys = some err) :
    err = Error.requiredFieldNotFound (assocKeys mandatory) := by
  induction keys with
  | nil => simp [checkMandatory] at h
  | cons key rest ih =>
    cases hget : assocGet key config with
    | none =>
      simp [checkMandatory, hget] at h
      exact h.symm
    | some v =>
      simp only [checkMandatory, hget] at h
      exact ih h

theorem checkAvailable_eq_none_iff (all : List (String × String)) (keys : List String) :
    checkAvailable all keys = none ↔ ∀ k ∈ keys, k ∈ assocKeys all := by
  induction keys with
  | nil => simp [checkAvailable]
  | cons key rest ih =>
    cases hget : assocGet key all with
    | none =>
      have : key ∉ assocKeys all := (assocGet_eq_none_iff _ _).mp hget
      simp [checkAvailable, hget, this]
    | some v =>
      have : key ∈ assocKeys all := by
        rw [← assocGet_isSome_iff, hget]
        rfl
      simp [checkAvailable, hget, this, ih]

theorem checkAvailable_eq_some (all : List (String × String)) (keys : List String)
    (err : Error) (h : checkAvailable all keys = some err) :
    err = Error.fieldsNotAvailable (assocKeys all) := by
  induction keys with
  | nil => simp [checkAvailable] at h
  | cons key rest ih =>
    cases hget : assocGet key all with
    | none =>
      simp [checkAvailable, hget] at h
      exact h.symm
    | some v =>
      simp only [checkAvailable, hget] at h
      exact ih h

/-! ## The derived maps -/

theorem mandatory_keys_iff (t : MetaIssueType) (order : List String)
    (m : List (String × String)) (ho : RangeOrder t order)
    (h : GetMandatoryFieldsIn t order = Except.ok m) (n : String) :
    n ∈ assocKeys m ↔
      ∃ key ∈ assocKeys t.Fields, ReadRequired t key true ∧ ReadName t key n := by
  have hspec := (mandatoryLoop_spec t.Fields order [] m h).1 n
  rw [hspec]
  constructor
  · rintro (hn | ⟨k, hk, hb, hs⟩)
    · simp [assocKeys] at hn
    · exact ⟨k, (List.Perm.mem_iff ho).mp hk, hb, hs⟩
  · rintro ⟨k, hk, hb, hs⟩
    exact Or.inr ⟨k, (List.Perm.mem_iff ho).mpr hk, hb, hs⟩

theorem mandatory_get (t : MetaIssueType) (order : List String)
    (m : List (String × String)) (ho : RangeOrder t order)
    (h : GetMandatoryFieldsIn t order = Except.ok m) (n k : String)
    (hget : assocGet n m = some k) :
    k ∈ assocKeys t.Fields ∧ ReadRequired t k true ∧ ReadName t k n := by
  rcases (mandatoryLoop_spec t.Fields order [] m h).2.1 n k hget with hret | ⟨hk, hb, hs⟩
  · simp [assocGet] at hret
  · exact ⟨(List.Perm.mem_iff ho).mp hk, hb, hs⟩

theorem all_keys_iff (t : MetaIssueType) (order : List String)
    (m : List (String × String)) (ho : RangeOrder t order)
    (h : GetAllFieldsIn t order = Except.ok m) (n : String) :
    n ∈ assocKeys m ↔ ∃ key ∈ assocKeys t.Fields, ReadName t key n := by
  have hspec := (allLoop_spec t.Fields order [] m h).1 n
  rw [hspec]
  constructor
  · rintro (hn | ⟨k, hk, hs⟩)
    · simp [assocKeys] at hn
    · exact ⟨k, (List.Perm.mem_iff ho).mp hk, hs⟩
  · rintro ⟨k, hk, hs⟩
    exact Or.inr ⟨k, (List.Perm.mem_iff ho).mpr hk, hs⟩

theorem all_get (t : MetaIssueType) (order : List String)
    (m : List (String × String)) (ho : RangeOrder t order)
    (h : GetAllFieldsIn t order = Except.ok m) (n k : String)
    (hget : assocGet n m = some k) :
    k ∈ assocKeys t.Fields ∧ ReadName t k n := by
  rcases (allLoop_spec t.Fields order [] m h).2.1 n k hget with hret | ⟨hk, hs⟩
  · simp [assocGet] at hret
  · exact ⟨(List.Perm.mem_iff ho).mp hk, hs⟩

theorem mandatory_nodup (t : MetaIssueType) (order : List String)
    (m : List (String × String)) (h : GetMandatoryFieldsIn t order = Except.ok m) :
    (assocKeys m).Nodup :=
  (mandatoryLoop_spec t.Fields order [] m h).2.2 (by simp [assocKeys])

theorem all_nodup (t : MetaIssueType) (order : List String)
    (m : List (String × String)) (h : GetAllFieldsIn t order = Except.ok m) :
    (assocKeys m).Nodup :=
  (allLoop_spec t.Fields order [] m h).2.2 (by simp [assocKeys])

theorem mandatory_ok (t : MetaIssueType) (order : List String) (ho : RangeOrder t order)
    (hreq : ∀ key ∈ assocKeys t.Fields, ∃ b, ReadRequired t key b)
    (hname : ∀ key ∈ assocKeys t.Fields, ReadRequired t key true → ∃ n, ReadName t key n) :
    ∃ m, GetMandatoryFieldsIn t order = Except.ok m :=
  mandatoryLoop_ok t.Fields order []
    (fun key hk => hreq key ((List.Perm.mem_iff ho).mp hk))
    (fun key hk => hname key ((List.Perm.mem_iff ho).mp hk))

theorem all_ok_iff (t : MetaIssueType) (order : List String) (ho : RangeOrder t order) :
    (∃ m, GetAllFieldsIn t order = Except.ok m) ↔
      ∀ key ∈ assocKeys t.Fields, ∃ n, ReadName t key n := by
  unfold GetAllFieldsIn
  rw [allLoop_ok_iff]
  constructor
  · intro h key hk
    exact h key ((List.Perm.mem_iff ho).mpr hk)
  · intro h key hk
    exact h key ((List.Perm.mem_iff ho).mp hk)

/-- The outcome of `CheckCompleteAndAvailable` once both derived maps are there. -/
theorem check_of_maps (t : MetaIssueType) (config : List (String × String))
    (order₁ order₂ : List String) (mandatory all : List (String × String))
    (hm : GetMandatoryFieldsIn t order₁ = Except.ok mandatory)
    (ha : GetAllFieldsIn t order₂ = Except.ok all) :
    CheckCompleteAndAvailableIn t config order₁ order₂ =
      if ∀ n ∈ assocKeys mandatory, n ∈ assocKeys config then
        if ∀ n ∈ assocKeys config, n ∈ assocKeys all then (true, none)
        else (false, some (Error.fieldsNotAvailable (assocKeys all)))
      else (false, some (Error.requiredFieldNotFound (assocKeys mandatory))) := by
  unfold CheckCompleteAndAvailableIn
  rw [hm, ha]
  simp only
  cases h₁ : checkMandatory mandatory config (assocKeys mandatory) with
  | some err =>
    have hnot : ¬ ∀ n ∈ assocKeys mandatory, n ∈ assocKeys config := by
      rw [← checkMandatory_eq_none_iff mandatory, h₁]
      simp
    rw [if_neg hnot, checkMandatory_eq_some _ _ _ _ h₁]
  | none =>
    have hyes := (checkMandatory_eq_none_iff mandatory _ _).mp h₁
    rw [if_pos hyes]
    cases h₂ : checkAvailable all (assocKeys config) with
    | some err =>
      have hnot : ¬ ∀ n ∈ assocKeys config, n ∈ assocKeys all := by
        rw [← checkAvailable_eq_none_iff, h₂]
        simp
      rw [if_neg hnot, checkAvailable_eq_some _ _ _ h₂]
    | none =>
      rw [if_pos ((checkAvailable_eq_none_iff _ _).mp h₂)]

/-! ## Reading an attribute of a field through its path

For a field key without `/` the path `key/attr` reaches the attribute `attr` of
the blob stored under `key`: what the code reads (`ReadRequired`, `ReadName`) is
then what the blob holds (`FieldRequired`, `FieldName`). For a key that holds a
`/` the two differ. -/

theorem splitPathAux_noSlash (cs current : List Char) (h : '/' ∉ cs) :
    splitPathAux cs current = [String.mk (current.reverse ++ cs)] := by
  induction cs generalizing current with
  | nil => simp [splitPathAux]
  | cons c rest ih =>
    have hc : c ≠ '/' := fun hEq => h (by simp [hEq])
    have hrest : '/' ∉ rest := fun hmem => h (List.mem_cons_of_mem _ hmem)
    simp [splitPathAux, hc, ih _ hrest]

theorem splitPathAux_append (a b current : List Char) (h : '/' ∉ a) :
    splitPathAux (a ++ '/' :: b) current =
      String.mk (current.reverse ++ a) :: splitPathAux b [] := by
  induction a generalizing current with
  | nil => simp [splitPathAux]
  | cons c rest ih =>
    have hc : c ≠ '/' := fun hEq => h (by simp [hEq])
    have hrest : '/' ∉ rest := fun hmem => h (List.mem_cons_of_mem _ hmem)
    simp [splitPathAux, hc, ih _ hrest]

theorem splitPath_key_attr (key attr : String) (hk : '/' ∉ key.data)
    (ha : '/' ∉ attr.data) : splitPath (key ++ ("/" ++ attr)) = [key, attr] := by
  have hdata : (key ++ ("/" ++ attr)).data = key.data ++ '/' :: attr.data := by
    rw [String.data_append, String.data_append]
    rfl
  unfold splitPath
  rw [hdata, splitPathAux_append _ _ _ hk, splitPathAux_noSlash _ _ ha]
  simp

theorem value_key_attr (m : MarshalMap) (key attr : String) (hk : '/' ∉ key.data)
    (ha : '/' ∉ attr.data) : m.Value (key ++ ("/" ++ attr)) = blobAttr m key attr := by
  unfold MarshalMap.Value blobAttr
  rw [splitPath_key_attr key attr hk ha]
  simp only [resolvePath]
  cases assocGet key m with
  | none => rfl
  | some v =>
    cases v with
    | obj entries =>
      simp only [resolvePath]
      cases assocGet attr entries <;> rfl
    | _ => rfl

theorem fieldName_iff_blob (t : MetaIssueType) (key n : String) (hk : '/' ∉ key.data) :
    ReadName t key n ↔ FieldName t key n := by
  have hv : t.Fields.Value (key ++ "/name") = blobAttr t.Fields key "name" :=
    value_key_attr t.Fields key "name" hk (by decide)
  unfold ReadName FieldName MarshalMap.String
  rw [hv]
  cases blobAttr t.Fields key "name" with
  | none => simp
  | some v => cases v <;> simp

theorem fieldRequired_iff_blob (t : MetaIssueType) (key : String) (b : Bool)
    (hk : '/' ∉ key.data) :
    ReadRequired t key b ↔ FieldRequired t key b := by
  have hv : t.Fields.Value (key ++ "/required") = blobAttr t.Fields key "required" :=
    value_key_attr t.Fields key "required" hk (by decide)
  unfold ReadRequired FieldRequired MarshalMap.Bool
  rw [hv]
  cases blobAttr t.Fields key "required" with
  | none => simp
  | some v => cases v <;> simp

/-! ## Completeness and availability of a candidate -/

/-- When every field reads as having a boolean `required` and a string `name`,
`CheckCompleteAndAvailable` returns true exactly when every name of a required
field is a key of `config` and every key of `config` is the name of some field,
whatever the orders in which the two loops over `t.Fields` visit the keys. -/
theorem check_true_iff_reads (t : MetaIssueType)
    (config : List (String × String)) (order₁ order₂ : List String)
    (h₁ : RangeOrder t order₁) (h₂ : RangeOrder t order₂)
    (hfields : ∀ key ∈ assocKeys t.Fields,
      (∃ b, ReadRequired t key b) ∧ ∃ n, ReadName t key n) :
    (CheckCompleteAndAvailableIn t config order₁ order₂).1 = true ↔
      (∀ key ∈ assocKeys t.Fields, ∀ n, ReadRequired t key true → ReadName t key n →
        n ∈ assocKeys config) ∧
      (∀ n ∈ assocKeys config, ∃ key ∈ assocKeys t.Fields, ReadName t key n) := by
  obtain ⟨mand, hm⟩ := mandatory_ok t order₁ h₁ (fun key hk => (hfields key hk).1)
    (fun key hk _ => (hfields key hk).2)
  obtain ⟨all, ha⟩ := (all_ok_iff t order₂ h₂).mpr (fun key hk => (hfields key hk).2)
  have e₁ : (∀ n ∈ assocKeys mand, n ∈ assocKeys config) ↔
      (∀ key ∈ assocKeys t.Fields, ∀ n, ReadRequired t key true → ReadName t key n →
        n ∈ assocKeys config) := by
    constructor
    · intro h key hk n hb hn
      exact h n ((mandatory_keys_iff t order₁ mand h₁ hm n).mpr ⟨key, hk, hb, hn⟩)
    · intro h n hn
      obtain ⟨key, hk, hb, hs⟩ := (mandatory_keys_iff t order₁ mand h₁ hm n).mp hn
      exact h key hk n hb hs
  have e₂ : (∀ n ∈ assocKeys config, n ∈ assocKeys all) ↔
      (∀ n ∈ assocKeys config, ∃ key ∈ assocKeys t.Fields, ReadName t key n) := by
    constructor
    · intro h n hn
      exact (all_keys_iff t order₂ all h₂ ha n).mp (h n hn)
    · intro h n hn
      exact (all_keys_iff t order₂ all h₂ ha n).mpr (h n hn)
  rw [check_of_maps t config order₁ order₂ mand all hm ha, ← e₁, ← e₂]
  by_cases c₁ : ∀ n ∈ assocKeys mand, n ∈ assocKeys config
  · by_cases c₂ : ∀ n ∈ assocKeys config, n ∈ assocKeys all
    · rw [if_pos c₁, if_pos c₂]
      exact ⟨fun _ => ⟨c₁, c₂⟩, fun _ => rfl⟩
    · rw [if_pos c₁, if_neg c₂]
      exact ⟨fun h => Bool.noConfusion h, fun h => absurd h.2 c₂⟩
  · rw [if_neg c₁]
    exact ⟨fun h => Bool.noConfusion h, fun h => absurd h.1 c₁⟩

/-- For every field of the scenario metadata the code reads a boolean `required`
and a string `name`. -/
theorem sampleMeta_reads : ∀ key ∈ assocKeys sampleMeta.Fields,
    (∃ b, ReadRequired sampleMeta key b) ∧ ∃ n, ReadName sampleMeta key n := by
  intro key hk
  have hk' : key = "f1" ∨ key = "f2" := by
    simpa [assocKeys, sampleMeta, metaOf] using hk
  rcases hk' with h | h
  · subst h
    exact ⟨⟨true, rfl⟩, ⟨"Summary", rfl⟩⟩
  · subst h
    exact ⟨⟨false, rfl⟩, ⟨"Labels", rfl⟩⟩

/-! ## The mandatory and the complete field map -/

/-- When every field reads as having a boolean `required` and every field read as
required reads as having a string `name`, `GetMandatoryFields` succeeds in every iteration order, the keys of
the returned map are exactly the names of the required fields, and each of
them is mapped to the key of a required field of that name. -/
theorem mandatory_spec_reads (t : MetaIssueType) (order : List String)
    (ho : RangeOrder t order)
    (hreq : ∀ key ∈ assocKeys t.Fields, ∃ b, ReadRequired t key b)
    (hname : ∀ key ∈ assocKeys t.Fields, ReadRequired t key true → ∃ n, ReadName t key n) :
    ∃ m, GetMandatoryFieldsIn t order = Except.ok m ∧
      (∀ n, n ∈ assocKeys m ↔
        ∃ key ∈ assocKeys t.Fields, ReadRequired t key true ∧ ReadName t key n) ∧
      (∀ n ∈ assocKeys m, ∃ key, assocGet n m = some key ∧ key ∈ assocKeys t.Fields ∧
        ReadRequired t key true ∧ ReadName t key n) := by
  obtain ⟨m, hm⟩ := mandatory_ok t order ho hreq hname
  refine ⟨m, hm, mandatory_keys_iff t order m ho hm, ?_⟩
  intro n hn
  have hsome : (assocGet n m).isSome = true := (assocGet_isSome_iff n m).mpr hn
  cases hget : assocGet n m with
  | none => simp [hget] at hsome
  | some key => exact ⟨key, rfl, mandatory_get t order m ho hm n key hget⟩

/-- In every iteration order `GetAllFields` succeeds exactly when the name of every
field can be read; the keys of the returned map are then exactly the
names of the fields, and each of them is mapped to the key of a field of that
name. -/
theorem all_spec_reads (t : MetaIssueType) (order : List String)
    (ho : RangeOrder t order) :
    ((∃ m, GetAllFieldsIn t order = Except.ok m) ↔
      ∀ key ∈ assocKeys t.Fields, ∃ n, ReadName t key n) ∧
    ∀ m, GetAllFieldsIn t order = Except.ok m →
      (∀ n, n ∈ assocKeys m ↔ ∃ key ∈ assocKeys t.Fields, ReadName t key n) ∧
      (∀ n ∈ assocKeys m, ∃ key, assocGet n m = some key ∧ key ∈ assocKeys t.Fields ∧
        ReadName t key n) := by
  refine ⟨all_ok_iff t order ho, ?_⟩
  intro m hm
  refine ⟨all_keys_iff t order m ho hm, ?_⟩
  intro n hn
  have hsome : (assocGet n m).isSome = true := (assocGet_isSome_iff n m).mpr hn
  cases hget : assocGet n m with
  | none => simp [hget] at hsome
  | some key => exact ⟨key, rfl, all_get t order m ho hm n key hget⟩

theorem mem_assocValues_iff {β : Type} (v : β) (m : List (String × β)) :
    v ∈ assocValues m ↔ ∃ k, (k, v) ∈ m := by
  simp [assocValues]

/-- C4: with a required field `f1` and an optional field `f2` that share the name
`Summary`, visited in the order `f1`, `f2`, the mandatory map holds the field key
`f1`, which is no value of the map `GetAllFields` returns: the later assignment
`ret[name] = key` has overwritten it, although that map is documented to hold
all the fields, required and not required. -/
theorem mandatory_values_not_subset_sharedName :
    FieldRequired sharedNameMeta "f1" true ∧ FieldName sharedNameMeta "f1" "Summary" ∧
    FieldRequired sharedNameMeta "f2" false ∧ FieldName sharedNameMeta "f2" "Summary" ∧
    ∃ mandatory all, GetMandatoryFields sharedNameMeta = Except.ok mandatory ∧
      GetAllFields sharedNameMeta = Except.ok all ∧
      "f1" ∈ assocValues mandatory ∧ "f1" ∉ assocValues all ∧
      ¬ ∀ key ∈ assocValues mandatory, key ∈ assocValues all :=
  ⟨rfl, rfl, rfl, rfl, [("Summary", "f1")], [("Summary", "f2")], rfl, rfl,
    by decide, by decide, by decide⟩

/-- When no field read as required shares the name read for it with another field, every
value of the map returned by `GetMandatoryFields` is a value of the map returned
by `GetAllFields`, whatever the orders in which the two loops visit the fields. -/
theorem mandatory_values_subset_reads (t : MetaIssueType) (order₁ order₂ : List String)
    (h₁ : RangeOrder t order₁) (h₂ : RangeOrder t order₂)
    (mandatory all : List (String × String))
    (hm : GetMandatoryFieldsIn t order₁ = Except.ok mandatory)
    (ha : GetAllFieldsIn t order₂ = Except.ok all)
    (huniq : ∀ key ∈ assocKeys t.Fields, ∀ n, ReadRequired t key true → ReadName t key n →
      ∀ other ∈ assocKeys t.Fields, ReadName t other n → other = key) :
    ∀ key ∈ assocValues mandatory, key ∈ assocValues all := by
  intro key hkey
  obtain ⟨n, hmem⟩ := (mem_assocValues_iff key mandatory).mp hkey
  have hget : assocGet n mandatory = some key :=
    assocGet_eq_some_of_mem n key mandatory (mandatory_nodup t order₁ mandatory hm) hmem
  obtain ⟨hk, hb, hs⟩ := mandatory_get t order₁ mandatory h₁ hm n key hget
  have hall : assocGet n all = some key := by
    apply allLoop_get_unique t.Fields order₂ [] all n key ha
    · intro other hother hn
      exact huniq key hk n hb hs other ((List.Perm.mem_iff h₂).mp hother) hn
    · exact Or.inl ⟨(List.Perm.mem_iff h₂).mpr hk, hs⟩
  exact (mem_assocValues_iff key all).mpr ⟨n, mem_of_assocGet_eq_some n key all hall⟩

/-- C5: whenever `GetMandatoryFields` and `GetAllFields` both succeed, in whatever
iteration orders, every key (field name) of the mandatory map is a key of the
complete map. -/
theorem mandatory_keys_subset (t : MetaIssueType) (order₁ order₂ : List String)
    (h₁ : RangeOrder t order₁) (h₂ : RangeOrder t order₂)
    (mandatory all : List (String × String))
    (hm : GetMandatoryFieldsIn t order₁ = Except.ok mandatory)
    (ha : GetAllFieldsIn t order₂ = Except.ok all) :
    ∀ n ∈ assocKeys mandatory, n ∈ assocKeys all := by
  intro n hn
  obtain ⟨key, hk, _, hs⟩ := (mandatory_keys_iff t order₁ mandatory h₁ hm n).mp hn
  exact (all_keys_iff t order₂ all h₂ ha n).mpr ⟨key, hk, hs⟩

/-- C5 on the metadata in which two fields share a name, the loops running in
opposite orders. -/
theorem mandatory_keys_subset_witness :
    RangeOrder sharedNameMeta ["f1", "f2"] ∧ RangeOrder sharedNameMeta ["f2", "f1"] ∧
    GetMandatoryFieldsIn sharedNameMeta ["f1", "f2"] = Except.ok [("Summary", "f1")] ∧
    GetAllFieldsIn sharedNameMeta ["f2", "f1"] = Except.ok [("Summary", "f1")] ∧
    ∀ n ∈ assocKeys [("Summary", "f1")], n ∈ assocKeys [("Summary", "f1")] :=
  ⟨List.Perm.refl _, List.Perm.swap "f1" "f2" [], rfl, rfl,
    mandatory_keys_subset sharedNameMeta ["f1", "f2"] ["f2", "f1"] (List.Perm.refl _)
      (List.Perm.swap "f1" "f2" []) [("Summary", "f1")] [("Summary", "f1")] rfl rfl⟩

end Jira

namespace Jira

/-! ## Resolving an issue type by name -/

theorem SimpleFold_upper (r : Nat) (h₁ : 0x41 ≤ r) (h₂ : r ≤ 0x5A) :
    SimpleFold r = r + 0x20 := by
  unfold SimpleFold
  split_ifs <;> omega

theorem SimpleFold_lower (r : Nat) (h₁ : 0x61 ≤ r) (h₂ : r ≤ 0x7A) (hK : r ≠ 0x6B)
    (hS : r ≠ 0x73) : SimpleFold r = r - 0x20 := by
  unfold SimpleFold
  split_ifs <;> omega

theorem SimpleFold_other (r : Nat) (h₁ : ¬ (0x41 ≤ r ∧ r ≤ 0x5A)) (h₂ : ¬ (0x61 ≤ r ∧ r ≤ 0x7A))
    (hK : r ≠ 0x212A) (hS : r ≠ 0x17F) : SimpleFold r = r := by
  unfold SimpleFold
  split_ifs <;> omega

/-- The walk from the smaller code point `s` reaches the larger one `t` exactly
when both have the same fold key. -/
theorem foldWalk_eq_iff (s t : Nat) (hst : s < t) (ht : 0x80 ≤ t) :
    foldWalk s t 4 (SimpleFold s) = t ↔ foldKey s = foldKey t := by
  by_cases c1 : s = 0x4B
  · subst c1
    simp only [foldWalk, SimpleFold, foldKey]
    norm_num
    split_ifs <;> omega
  by_cases c2 : s = 0x6B
  · subst c2
    simp only [foldWalk, SimpleFold, foldKey]
    norm_num
    split_ifs <;> omega
  by_cases c3 : s = 0x212A
  · subst c3
    simp only [foldWalk, SimpleFold, foldKey]
    norm_num
    split_ifs <;> omega
  by_cases c4 : s = 0x53
  · subst c4
    simp only [foldWalk, SimpleFold, foldKey]
    norm_num
    split_ifs <;> omega
  by_cases c5 : s = 0x73
  · subst c5
    simp only [foldWalk, SimpleFold, foldKey]
    norm_num
    split_ifs <;> omega
  by_cases c6 : s = 0x17F
  · subst c6
    simp only [foldWalk, SimpleFold, foldKey]
    norm_num
    split_ifs <;> omega
  by_cases cu : 0x41 ≤ s ∧ s ≤ 0x5A
  · have e₁ : SimpleFold s = s + 0x20 := SimpleFold_upper s cu.1 cu.2
    have e₂ : SimpleFold (s + 0x20) = s := by
      rw [SimpleFold_lower (s + 0x20) (by omega) (by omega) (by omega) (by omega)]
      omega
    have hw : foldWalk s t 4 (s + 0x20) = s := by
      have h₁ : s + 0x20 ≠ s ∧ s + 0x20 < t := ⟨by omega, by omega⟩
      simp only [foldWalk, if_pos h₁, e₂]
      simp
    rw [e₁, hw]
    unfold foldKey
    split_ifs <;> omega
  by_cases cl : 0x61 ≤ s ∧ s ≤ 0x7A
  · have e₁ : SimpleFold s = s - 0x20 := SimpleFold_lower s cl.1 cl.2 c2 c5
    have e₂ : SimpleFold (s - 0x20) = s := by
      rw [SimpleFold_upper (s - 0x20) (by omega) (by omega)]
      omega
    have hw : foldWalk s t 4 (s - 0x20) = s := by
      have h₁ : s - 0x20 ≠ s ∧ s - 0x20 < t := ⟨by omega, by omega⟩
      simp only [foldWalk, if_pos h₁, e₂]
      simp
    rw [e₁, hw]
    unfold foldKey
    split_ifs <;> omega
  · have e₁ : SimpleFold s = s := SimpleFold_other s cu cl c3 c6
    have hw : foldWalk s t 4 s = s := by
      simp [foldWalk]
    rw [e₁, hw]
    unfold foldKey
    split_ifs <;> omega

theorem equalFoldRune_eq (a b : Nat) : equalFoldRune a b = decide (foldKey a = foldKey b) := by
  unfold equalFoldRune
  by_cases hab : b = a
  · subst hab
    simp
  · simp only [if_neg hab]
    rcases Nat.lt_or_ge a b with hlt | hge
    · have hmin : min a b = a := Nat.min_eq_left (Nat.le_of_lt hlt)
      have hmax : max a b = b := Nat.max_eq_right (Nat.le_of_lt hlt)
      simp only [hmin, hmax]
      by_cases hb : b < 0x80
      · simp only [if_pos hb]
        congr 1
        unfold foldKey
        apply propext
        split_ifs <;> omega
      · simp only [if_neg hb]
        congr 1
        exact propext (foldWalk_eq_iff a b hlt (by omega))
    · have hlt : b < a := by omega
      have hmin : min a b = b := Nat.min_eq_right (Nat.le_of_lt hlt)
      have hmax : max a b = a := Nat.max_eq_left (Nat.le_of_lt hlt)
      simp only [hmin, hmax]
      by_cases ha : a < 0x80
      · simp only [if_pos ha]
        congr 1
        unfold foldKey
        apply propext
        split_ifs <;> omega
      · simp only [if_neg ha]
        congr 1
        apply propext
        rw [foldWalk_eq_iff b a hlt (by omega)]
        exact eq_comm

theorem foldKey_toLower (b : Nat) (hb : b < 0x80) : foldKey (unicodeToLower b) = foldKey b := by
  unfold foldKey unicodeToLower
  split_ifs <;> omega

theorem equalFoldRune_toLower (a b : Nat) (hb : b < 0x80) :
    equalFoldRune a (unicodeToLower b) = equalFoldRune a b := by
  rw [equalFoldRune_eq, equalFoldRune_eq, foldKey_toLower b hb]

theorem toNat_ofNat_small (n : Nat) (h : n < 0xd800) : (Char.ofNat n).toNat = n := by
  unfold Char.ofNat
  have hv : n.isValidChar := Or.inl h
  rw [dif_pos hv]
  simp [Char.ofNatAux, Char.toNat, UInt32.toNat]

theorem unicodeToLower_lt (b : Nat) (hb : b < 0x80) : unicodeToLower b < 0xd800 := by
  unfold unicodeToLower
  split_ifs <;> omega

/-- Lower-casing an ASCII query does not change what `strings.EqualFold` says
about it. -/
theorem equalFoldRunes_toLower (l q : List Char) (hq : ∀ c ∈ q, c.toNat < 0x80) :
    equalFoldRunes l (q.map (fun c => Char.ofNat (unicodeToLower c.toNat))) =
      equalFoldRunes l q := by
  induction l generalizing q with
  | nil => cases q <;> simp [equalFoldRunes]
  | cons a rest ih =>
    cases q with
    | nil => simp [equalFoldRunes]
    | cons b q' =>
      have hb : b.toNat < 0x80 := hq b (List.mem_cons_self _ _)
      have hq' : ∀ c ∈ q', c.toNat < 0x80 := fun c hc => hq c (List.mem_cons_of_mem _ hc)
      simp only [List.map_cons, equalFoldRunes,
        toNat_ofNat_small _ (unicodeToLower_lt _ hb), equalFoldRune_toLower _ _ hb, ih q' hq']

theorem equalFold_toLower (s name : String) (h : IsASCII name) :
    EqualFold s (ToLower name) = EqualFold s name :=
  equalFoldRunes_toLower s.data name.data h

theorem equalFoldRunes_eq (l q : List Char) :
    equalFoldRunes l q = decide (l.map (fun c => foldKey c.toNat) =
      q.map (fun c => foldKey c.toNat)) := by
  induction l generalizing q with
  | nil => cases q <;> simp [equalFoldRunes]
  | cons a rest ih =>
    cases q with
    | nil => simp [equalFoldRunes]
    | cons b q' =>
      simp only [equalFoldRunes, equalFoldRune_eq, ih q', List.map_cons, List.cons.injEq]
      by_cases h₁ : foldKey a.toNat = foldKey b.toNat <;>
        by_cases h₂ : List.map (fun c => foldKey c.toNat) rest =
          List.map (fun c => foldKey c.toNat) q' <;> simp [h₁, h₂]

/-- Under the tables above `strings.EqualFold` is the equality of fold keys, an
equivalence relation. -/
theorem equalFold_iff (s t : String) :
    EqualFold s t = true ↔
      s.data.map (fun c => foldKey c.toNat) = t.data.map (fun c => foldKey c.toNat) := by
  unfold EqualFold
  rw [equalFoldRunes_eq]
  simp

theorem equalFold_congr_right (s n₁ n₂ : String) (h : EqualFold n₁ n₂ = true) :
    EqualFold s n₁ = EqualFold s n₂ := by
  have h' := (equalFold_iff n₁ n₂).mp h
  unfold EqualFold
  rw [equalFoldRunes_eq, equalFoldRunes_eq, h']

theorem findIssueType_ok (name : String) (l : List IssueType) (m : IssueType)
    (h : findIssueType name l = Except.ok m) :
    m ∈ l ∧ EqualFold m.Name (ToLower name) = true := by
  induction l with
  | nil => simp [findIssueType] at h
  | cons first rest ih =>
    by_cases hf : EqualFold first.Name (ToLower name) = true
    · simp only [findIssueType, hf, if_true] at h
      cases h
      exact ⟨List.mem_cons_self _ _, hf⟩
    · simp only [findIssueType, hf] at h
      obtain ⟨hmem, hm⟩ := ih h
      exact ⟨List.mem_cons_of_mem _ hmem, hm⟩

theorem findIssueType_error (name : String) (l : List IssueType) (e : Error)
    (h : findIssueType name l = Except.error e) :
    e = Error.issueTypeNotFound name ∧ ∀ m ∈ l, EqualFold m.Name (ToLower name) = false := by
  induction l with
  | nil =>
    simp [findIssueType] at h
    simp [h]
  | cons first rest ih =>
    by_cases hf : EqualFold first.Name (ToLower name) = true
    · simp [findIssueType, hf] at h
    · simp only [findIssueType, hf] at h
      obtain ⟨he, hall⟩ := ih h
      refine ⟨he, ?_⟩
      intro m hm
      rcases List.mem_cons.mp hm with hEq | hrest
      · subst hEq
        simpa using hf
      · exact hall m hrest

/-- The scan returns the first issue type that passes its comparison. -/
theorem findIssueType_first (name : String) (before after : List IssueType) (m : IssueType)
    (hm : EqualFold m.Name (ToLower name) = true)
    (hbefore : ∀ x ∈ before, EqualFold x.Name (ToLower name) = false) :
    findIssueType name (before ++ m :: after) = Except.ok m := by
  induction before with
  | nil => simp [findIssueType, hm]
  | cons first rest ih =>
    have hf : EqualFold first.Name (ToLower name) = false :=
      hbefore first (List.mem_cons_self _ _)
    simp only [List.cons_append, findIssueType, hf]
    exact ih (fun x hx => hbefore x (List.mem_cons_of_mem _ hx))

theorem findIssueType_congr (n₁ n₂ : String) (l : List IssueType)
    (h : ∀ m ∈ l, EqualFold m.Name (ToLower n₁) = EqualFold m.Name (ToLower n₂)) :
    (findIssueType n₁ l = Except.error (Error.issueTypeNotFound n₁) ∧
      findIssueType n₂ l = Except.error (Error.issueTypeNotFound n₂)) ∨
    ∃ m, findIssueType n₁ l = Except.ok m ∧ findIssueType n₂ l = Except.ok m := by
  induction l with
  | nil => exact Or.inl ⟨rfl, rfl⟩
  | cons first rest ih =>
    have hf := h first (List.mem_cons_self _ _)
    by_cases c : EqualFold first.Name (ToLower n₂) = true
    · right
      exact ⟨first, by simp [findIssueType, hf, c], by simp [findIssueType, c]⟩
    · have c' : ¬ EqualFold first.Name (ToLower n₁) = true := by rw [hf]; exact c
      simp only [findIssueType, c, c']
      exact ih (fun m hm => h m (List.mem_cons_of_mem _ hm))

/-- For ASCII queries `GetIssueTypeWithName` is case-insensitive: two queries that
differ only in letter case fail both or return the same issue type, and an
ASCII query returns an issue type exactly when some issue-type name equals it
ignoring case. -/
theorem getIssueTypeWithName_ascii (p : MetaProject) (n₁ n₂ : String)
    (h₁ : IsASCII n₁) (h₂ : IsASCII n₂) (h : EqualFold n₁ n₂ = true) :
    ((GetIssueTypeWithName p n₁ = Except.error (Error.issueTypeNotFound n₁) ∧
        GetIssueTypeWithName p n₂ = Except.error (Error.issueTypeNotFound n₂)) ∨
      ∃ m, GetIssueTypeWithName p n₁ = Except.ok m ∧ GetIssueTypeWithName p n₂ = Except.ok m) ∧
    ((∃ m, GetIssueTypeWithName p n₁ = Except.ok m) ↔
      ∃ m ∈ p.IssueTypes, EqualFold m.Name n₁ = true) := by
  constructor
  · apply findIssueType_congr
    intro m _
    rw [equalFold_toLower _ _ h₁, equalFold_toLower _ _ h₂]
    exact equalFold_congr_right m.Name n₁ n₂ h
  · constructor
    · rintro ⟨m, hm⟩
      obtain ⟨hmem, hfold⟩ := findIssueType_ok n₁ p.IssueTypes m hm
      rw [equalFold_toLower _ _ h₁] at hfold
      exact ⟨m, hmem, hfold⟩
    · rintro ⟨m, hmem, hfold⟩
      cases hres : GetIssueTypeWithName p n₁ with
      | ok found => exact ⟨found, rfl⟩
      | error e =>
        have hnone := (findIssueType_error n₁ p.IssueTypes e hres).2 m hmem
        rw [equalFold_toLower _ _ h₁, hfold] at hnone
        cases hnone

/-- C6: the names `Help`, `help` and `HELP` resolve to the same issue type, but
the lookup is not case-insensitive on every string: an issue type named `İ`
(U+0130) is not found when it is queried by its own name, because the query is
lower-cased to `i` before `strings.EqualFold` compares it with `İ`. -/
theorem getIssueTypeWithName_own_name_not_found :
    GetIssueTypeWithName (projectOf [issueTypeOf "1" "Bug", issueTypeOf "2" "Help"]) "Help"
      = Except.ok (issueTypeOf "2" "Help") ∧
    GetIssueTypeWithName (projectOf [issueTypeOf "1" "Bug", issueTypeOf "2" "Help"]) "help"
      = Except.ok (issueTypeOf "2" "Help") ∧
    GetIssueTypeWithName (projectOf [issueTypeOf "1" "Bug", issueTypeOf "2" "Help"]) "HELP"
      = Except.ok (issueTypeOf "2" "Help") ∧
    ToLower "\u0130" = "i" ∧ EqualFold "\u0130" "i" = false ∧
    GetIssueTypeWithName (projectOf [issueTypeOf "7" "\u0130"]) "\u0130"
      = Except.error (Error.issueTypeNotFound "\u0130") :=
  ⟨rfl, rfl, rfl, by decide, by decide, rfl⟩

/-- C7: the project holds an issue type whose name `İade` is equal to the queried
name, so also equal to it ignoring case, and `GetIssueTypeWithName` still returns
the error that names the query. -/
theorem getIssueTypeWithName_error_despite_equal_name :
    (∃ m ∈ (projectOf [issueTypeOf "3" "\u0130ade"]).IssueTypes,
      m.Name = "\u0130ade" ∧ EqualFold m.Name "\u0130ade" = true) ∧
    GetIssueTypeWithName (projectOf [issueTypeOf "3" "\u0130ade"]) "\u0130ade"
      = Except.error (Error.issueTypeNotFound "\u0130ade") :=
  ⟨⟨issueTypeOf "3" "\u0130ade", List.mem_cons_self _ _, rfl, by decide⟩, rfl⟩

/-- C8: two issue types, `İade` and `İADE`, both equal the query `İade` ignoring
case, and `GetIssueTypeWithName` returns neither the first of them nor any
other issue type. -/
theorem getIssueTypeWithName_no_first_match :
    EqualFold (issueTypeOf "4" "\u0130ade").Name "\u0130ade" = true ∧
    EqualFold (issueTypeOf "5" "\u0130ADE").Name "\u0130ade" = true ∧
    GetIssueTypeWithName
        (projectOf [issueTypeOf "4" "\u0130ade", issueTypeOf "5" "\u0130ADE"]) "\u0130ade"
      = Except.error (Error.issueTypeNotFound "\u0130ade") :=
  ⟨by decide, by decide, rfl⟩

/-! ## The errors of `CheckCompleteAndAvailable` -/

/-- C9, as stated, fails: with the required fields `Summary` and `Description`
and a candidate that holds `Summary` only, the error lists `Summary` too, a name
that is not absent from the candidate. -/
theorem requiredFieldNotFound_lists_present_name :
    GetMandatoryFields twoRequiredMeta
      = Except.ok [("Summary", "f1"), ("Description", "f2")] ∧
    CheckCompleteAndAvailable twoRequiredMeta [("Summary", "f1")]
      = (false, some (Error.requiredFieldNotFound ["Summary", "Description"])) ∧
    ¬ ∀ n, n ∈ ["Summary", "Description"] ↔
        (n ∈ assocKeys [("Summary", "f1"), ("Description", "f2")] ∧
          n ∉ assocKeys [("Summary", "f1")]) := by
  refine ⟨rfl, by decide, ?_⟩
  intro h
  exact ((h "Summary").mp (by decide)).2 (by decide)

/-- C9, amended: when both derived maps are there and the candidate lacks a
mandatory name, `CheckCompleteAndAvailable` returns false with the
required-field error, and the names the error carries are exactly the keys of
the map `GetMandatoryFields` returned, absent from the candidate or not: the names
the code reads for the fields it reads as required. -/
theorem missing_required_error (t : MetaIssueType) (config : List (String × String))
    (order₁ order₂ : List String) (h₁ : RangeOrder t order₁)
    (mandatory all : List (String × String))
    (hm : GetMandatoryFieldsIn t order₁ = Except.ok mandatory)
    (ha : GetAllFieldsIn t order₂ = Except.ok all)
    (hmiss : ∃ n ∈ assocKeys mandatory, n ∉ assocKeys config) :
    ∃ names, CheckCompleteAndAvailableIn t config order₁ order₂
        = (false, some (Error.requiredFieldNotFound names)) ∧
      (∀ n, n ∈ names ↔ n ∈ assocKeys mandatory) ∧
      ∀ n, n ∈ names ↔
        ∃ key ∈ assocKeys t.Fields, ReadRequired t key true ∧ ReadName t key n := by
  refine ⟨assocKeys mandatory, ?_, fun _ => Iff.rfl,
    mandatory_keys_iff t order₁ mandatory h₁ hm⟩
  rw [check_of_maps t config order₁ order₂ mandatory all hm ha]
  have hnot : ¬ ∀ n ∈ assocKeys mandatory, n ∈ assocKeys config := by
    intro hall
    obtain ⟨n, hn, hno⟩ := hmiss
    exact hno (hall n hn)
  rw [if_neg hnot]

/-- C9, scenario: the candidate `{"Labels": "f2"}` fails listing `["Summary"]`. -/
theorem missing_required_error_witness :
    CheckCompleteAndAvailable sampleMeta [("Labels", "f2")]
      = (false, some (Error.requiredFieldNotFound ["Summary"])) ∧
    RangeOrder sampleMeta ["f1", "f2"] ∧
    (∃ n ∈ assocKeys [("Summary", "f1")], n ∉ assocKeys [("Labels", "f2")]) ∧
    ∃ names, CheckCompleteAndAvailableIn sampleMeta [("Labels", "f2")] ["f1", "f2"]
        ["f2", "f1"] = (false, some (Error.requiredFieldNotFound names)) ∧
      (∀ n, n ∈ names ↔ n ∈ assocKeys [("Summary", "f1")]) ∧
      ∀ n, n ∈ names ↔ ∃ key ∈ assocKeys sampleMeta.Fields,
        ReadRequired sampleMeta key true ∧ ReadName sampleMeta key n :=
  ⟨by decide, List.Perm.refl _, ⟨"Summary", by decide, by decide⟩,
    missing_required_error sampleMeta [("Labels", "f2")] ["f1", "f2"] ["f2", "f1"]
      (List.Perm.refl _) [("Summary", "f1")] [("Labels", "f2"), ("Summary", "f1")] rfl rfl
      ⟨"Summary", by decide, by decide⟩⟩

/-- C10, as stated, fails: for the candidate `{"Summary": "f1", "Priority": "f3"}`
the error lists the available names `Summary` and `Labels`, and not the
unrecognised name `Priority`. -/
theorem fieldsNotAvailable_lists_available_names :
    GetAllFields sampleMeta = Except.ok [("Summary", "f1"), ("Labels", "f2")] ∧
    CheckCompleteAndAvailable sampleMeta [("Summary", "f1"), ("Priority", "f3")]
      = (false, some (Error.fieldsNotAvailable ["Summary", "Labels"])) ∧
    ¬ ∀ n, n ∈ ["Summary", "Labels"] ↔
        (n ∈ assocKeys [("Summary", "f1"), ("Priority", "f3")] ∧
          n ∉ assocKeys [("Summary", "f1"), ("Labels", "f2")]) := by
  refine ⟨rfl, by decide, ?_⟩
  intro h
  exact ((h "Summary").mp (by decide)).2 (by decide)

/-- C10, amended: when both derived maps are there, the candidate holds every
mandatory name and also a name that is the name of no field,
`CheckCompleteAndAvailable` returns false with the fields-not-available error,
and the names the error carries are exactly the keys of the map `GetAllFields`
returned: the names the code reads for the fields of the issue type. -/
theorem unknown_field_error (t : MetaIssueType) (config : List (String × String))
    (order₁ order₂ : List String) (h₂ : RangeOrder t order₂)
    (mandatory all : List (String × String))
    (hm : GetMandatoryFieldsIn t order₁ = Except.ok mandatory)
    (ha : GetAllFieldsIn t order₂ = Except.ok all)
    (hall : ∀ n ∈ assocKeys mandatory, n ∈ assocKeys config)
    (hunknown : ∃ n ∈ assocKeys config, n ∉ assocKeys all) :
    ∃ names, CheckCompleteAndAvailableIn t config order₁ order₂
        = (false, some (Error.fieldsNotAvailable names)) ∧
      (∀ n, n ∈ names ↔ n ∈ assocKeys all) ∧
      ∀ n, n ∈ names ↔ ∃ key ∈ assocKeys t.Fields, ReadName t key n := by
  refine ⟨assocKeys all, ?_, fun _ => Iff.rfl, all_keys_iff t order₂ all h₂ ha⟩
  rw [check_of_maps t config order₁ order₂ mandatory all hm ha]
  have hnot : ¬ ∀ n ∈ assocKeys config, n ∈ assocKeys all := by
    intro h
    obtain ⟨n, hn, hno⟩ := hunknown
    exact hno (h n hn)
  rw [if_pos hall, if_neg hnot]

/-- C10, scenario: the candidate `{"Summary": "f1", "Priority": "f3"}` passes the
mandatory check and fails with the fields-not-available error. -/
theorem unknown_field_error_witness :
    RangeOrder sampleMeta ["f2", "f1"] ∧
    (∀ n ∈ assocKeys [("Summary", "f1")],
      n ∈ assocKeys [("Summary", "f1"), ("Priority", "f3")]) ∧
    (∃ n ∈ assocKeys [("Summary", "f1"), ("Priority", "f3")],
      n ∉ assocKeys [("Labels", "f2"), ("Summary", "f1")]) ∧
    ∃ names, CheckCompleteAndAvailableIn sampleMeta [("Summary", "f1"), ("Priority", "f3")]
        ["f1", "f2"] ["f2", "f1"] = (false, some (Error.fieldsNotAvailable names)) ∧
      (∀ n, n ∈ names ↔ n ∈ assocKeys [("Labels", "f2"), ("Summary", "f1")]) ∧
      ∀ n, n ∈ names ↔ ∃ key ∈ assocKeys sampleMeta.Fields, ReadName sampleMeta key n :=
  ⟨List.Perm.swap "f1" "f2" [], by decide, ⟨"Priority", by decide, by decide⟩,
    unknown_field_error sampleMeta [("Summary", "f1"), ("Priority", "f3")] ["f1", "f2"]
      ["f2", "f1"] (List.Perm.swap "f1" "f2" []) [("Summary", "f1")]
      [("Labels", "f2"), ("Summary", "f1")] rfl rfl (by decide)
      ⟨"Priority", by decide, by decide⟩⟩

end Jira

namespace Jira

/-! ## Success of `GetMandatoryFields` -/

theorem mandatoryLoop_ok_cond (fields : MarshalMap) (keys : List String)
    (ret m : List (String × String)) (h : mandatoryLoop fields keys ret = Except.ok m) :
    ∀ key ∈ keys, (∃ b, fields.Bool (key ++ "/required") = Except.ok b) ∧
      (fields.Bool (key ++ "/required") = Except.ok true →
        ∃ n, fields.String (key ++ "/name") = Except.ok n) := by
  induction keys generalizing ret with
  | nil => simp
  | cons first rest ih =>
    cases hB : fields.Bool (first ++ "/required") with
    | error e => simp [mandatoryLoop, hB] at h
    | ok required =>
      cases required with
      | false =>
        simp only [mandatoryLoop, hB] at h
        intro key hk
        rcases List.mem_cons.mp hk with hEq | hrest
        · subst hEq
          rw [hB]
          exact ⟨⟨false, rfl⟩, fun hc => by cases hc⟩
        · exact ih _ h key hrest
      | true =>
        cases hS : fields.String (first ++ "/name") with
        | error e => simp [mandatoryLoop, hB, hS] at h
        | ok name =>
          simp only [mandatoryLoop, hB, hS, if_true] at h
          intro key hk
          rcases List.mem_cons.mp hk with hEq | hrest
          · subst hEq
            rw [hB, hS]
            exact ⟨⟨true, rfl⟩, fun _ => ⟨name, rfl⟩⟩
          · exact ih _ h key hrest

theorem except_error_of_not_ok {α : Type} (x : Except Error α) (h : ∀ a, x ≠ Except.ok a) :
    ∃ e, x = Except.error e := by
  cases x with
  | error e => exact ⟨e, rfl⟩
  | ok a => exact absurd rfl (h a)

/-- Whether `GetMandatoryFields` succeeds does not depend on the iteration order. -/
theorem mandatory_ok_iff (t : MetaIssueType) (order : List String) (ho : RangeOrder t order) :
    (∃ m, GetMandatoryFieldsIn t order = Except.ok m) ↔
      ∀ key ∈ assocKeys t.Fields, (∃ b, ReadRequired t key b) ∧
        (ReadRequired t key true → ∃ n, ReadName t key n) := by
  constructor
  · rintro ⟨m, hm⟩ key hk
    exact mandatoryLoop_ok_cond t.Fields order [] m hm key ((List.Perm.mem_iff ho).mpr hk)
  · intro h
    exact mandatory_ok t order ho (fun key hk => (h key hk).1) (fun key hk => (h key hk).2)

/-! ## The order of the two checks -/

/-- C11: when both derived maps are there and the candidate both lacks a
mandatory name and holds a name that is the name of no field,
`CheckCompleteAndAvailable` fails with the required-field error and not with the
fields-not-available error: the mandatory check comes first. -/
theorem required_error_before_availability (t : MetaIssueType)
    (config : List (String × String)) (order₁ order₂ : List String)
    (mandatory all : List (String × String))
    (hm : GetMandatoryFieldsIn t order₁ = Except.ok mandatory)
    (ha : GetAllFieldsIn t order₂ = Except.ok all)
    (hmiss : ∃ n ∈ assocKeys mandatory, n ∉ assocKeys config)
    (_hunknown : ∃ n ∈ assocKeys config, n ∉ assocKeys all) :
    (∃ names, CheckCompleteAndAvailableIn t config order₁ order₂
        = (false, some (Error.requiredFieldNotFound names))) ∧
    ∀ names, CheckCompleteAndAvailableIn t config order₁ order₂
        ≠ (false, some (Error.fieldsNotAvailable names)) := by
  have hnot : ¬ ∀ n ∈ assocKeys mandatory, n ∈ assocKeys config := by
    intro hall
    obtain ⟨n, hn, hno⟩ := hmiss
    exact hno (hall n hn)
  have hres := check_of_maps t config order₁ order₂ mandatory all hm ha
  rw [if_neg hnot] at hres
  refine ⟨⟨assocKeys mandatory, hres⟩, ?_⟩
  intro names hEq
  rw [hres] at hEq
  injection hEq with _ h₂
  injection h₂ with h₃
  cases h₃

/-- C11, scenario: the candidate `{"Labels": "f2", "Priority": "f3"}` lacks
`Summary` and holds the unknown `Priority`; the error is the required-field one. -/
theorem required_error_before_availability_witness :
    CheckCompleteAndAvailable sampleMeta [("Labels", "f2"), ("Priority", "f3")]
      = (false, some (Error.requiredFieldNotFound ["Summary"])) ∧
    (∃ n ∈ assocKeys [("Summary", "f1")],
      n ∉ assocKeys [("Labels", "f2"), ("Priority", "f3")]) ∧
    (∃ n ∈ assocKeys [("Labels", "f2"), ("Priority", "f3")],
      n ∉ assocKeys [("Summary", "f1"), ("Labels", "f2")]) ∧
    (∃ names, CheckCompleteAndAvailableIn sampleMeta [("Labels", "f2"), ("Priority", "f3")]
        ["f1", "f2"] ["f1", "f2"] = (false, some (Error.requiredFieldNotFound names))) ∧
    ∀ names, CheckCompleteAndAvailableIn sampleMeta [("Labels", "f2"), ("Priority", "f3")]
        ["f1", "f2"] ["f1", "f2"] ≠ (false, some (Error.fieldsNotAvailable names)) :=
  ⟨by decide, ⟨"Summary", by decide, by decide⟩, ⟨"Priority", by decide, by decide⟩,
    required_error_before_availability sampleMeta [("Labels", "f2"), ("Priority", "f3")]
      ["f1", "f2"] ["f1", "f2"] [("Summary", "f1")] [("Summary", "f1"), ("Labels", "f2")]
      rfl rfl ⟨"Summary", by decide, by decide⟩ ⟨"Priority", by decide, by decide⟩⟩

/-! ## Decode failures of `GetMandatoryFields` -/

/-- When for some field no boolean `required` can be read, `GetMandatoryFields` returns an error and no map in every iteration
order. -/
theorem mandatory_error_of_required_reads (t : MetaIssueType) (order : List String)
    (ho : RangeOrder t order)
    (h : ∃ key ∈ assocKeys t.Fields, ∀ b, ¬ ReadRequired t key b) :
    ∃ err, GetMandatoryFieldsIn t order = Except.error err := by
  apply except_error_of_not_ok
  intro m hm
  obtain ⟨key, hk, hno⟩ := h
  obtain ⟨⟨b, hb⟩, _⟩ := (mandatory_ok_iff t order ho).mp ⟨m, hm⟩ key hk
  exact hno b hb

/-- C13, as stated, fails: the optional field `f2` has no `name`, so that
`GetAllFields` fails, and `GetMandatoryFields` still succeeds, because it reads the
name of required fields only. -/
theorem getMandatoryFields_ok_despite_missing_name :
    PlainKeys optionalNamelessMeta ∧
    (∃ key ∈ assocKeys optionalNamelessMeta.Fields,
      ∀ n, ¬ FieldName optionalNamelessMeta key n) ∧
    GetAllFields optionalNamelessMeta = Except.error (Error.keyNotFound "f2/name") ∧
    GetMandatoryFields optionalNamelessMeta = Except.ok [("Summary", "f1")] :=
  ⟨by unfold PlainKeys; decide, ⟨"f2", by decide, fun n hn => by cases hn⟩, rfl, rfl⟩

/-- When for some field read as required no string `name` can be read,
`GetMandatoryFields` returns an error in every iteration order. -/
theorem mandatory_error_of_required_name_reads (t : MetaIssueType) (order : List String)
    (ho : RangeOrder t order)
    (h : ∃ key ∈ assocKeys t.Fields, ReadRequired t key true ∧ ∀ n, ¬ ReadName t key n) :
    ∃ err, GetMandatoryFieldsIn t order = Except.error err := by
  apply except_error_of_not_ok
  intro m hm
  obtain ⟨key, hk, hreq, hno⟩ := h
  obtain ⟨n, hn⟩ := ((mandatory_ok_iff t order ho).mp ⟨m, hm⟩ key hk).2 hreq
  exact hno n hn

/-! ## Determinism of the complete field map -/

/-- C14, as stated, fails: when `f1` and `f2` share the name `Summary`, the
iteration order `f1, f2` yields `{"Summary": "f2"}` and the order `f2, f1`
yields `{"Summary": "f1"}`. -/
theorem getAllFields_order_dependent :
    RangeOrder sharedNameMeta ["f1", "f2"] ∧ RangeOrder sharedNameMeta ["f2", "f1"] ∧
    GetAllFieldsIn sharedNameMeta ["f1", "f2"] = Except.ok [("Summary", "f2")] ∧
    GetAllFieldsIn sharedNameMeta ["f2", "f1"] = Except.ok [("Summary", "f1")] ∧
    assocGet "Summary" [("Summary", "f2")] ≠ assocGet "Summary" [("Summary", "f1")] :=
  ⟨List.Perm.refl _, List.Perm.swap "f1" "f2" [], rfl, rfl, by decide⟩

/-- When no two fields share the name read for them, an evaluation of `GetAllFields`
in any other iteration order succeeds as well and returns a map with the same
entries. -/
theorem all_deterministic_reads (t : MetaIssueType) (order₁ order₂ : List String)
    (h₁ : RangeOrder t order₁) (h₂ : RangeOrder t order₂)
    (hinj : ∀ key ∈ assocKeys t.Fields, ∀ other ∈ assocKeys t.Fields, ∀ n,
      ReadName t key n → ReadName t other n → other = key)
    (m₁ : List (String × String)) (hm₁ : GetAllFieldsIn t order₁ = Except.ok m₁) :
    ∃ m₂, GetAllFieldsIn t order₂ = Except.ok m₂ ∧ ∀ n, assocGet n m₂ = assocGet n m₁ := by
  obtain ⟨m₂, hm₂⟩ := (all_ok_iff t order₂ h₂).mpr ((all_ok_iff t order₁ h₁).mp ⟨m₁, hm₁⟩)
  refine ⟨m₂, hm₂, ?_⟩
  intro n
  cases hget : assocGet n m₁ with
  | none =>
    have hno : n ∉ assocKeys m₁ := (assocGet_eq_none_iff n m₁).mp hget
    apply (assocGet_eq_none_iff n m₂).mpr
    intro hn
    exact hno ((all_keys_iff t order₁ m₁ h₁ hm₁ n).mpr
      ((all_keys_iff t order₂ m₂ h₂ hm₂ n).mp hn))
  | some key =>
    obtain ⟨hk, hs⟩ := all_get t order₁ m₁ h₁ hm₁ n key hget
    apply allLoop_get_unique t.Fields order₂ [] m₂ n key hm₂
    · intro other hother hn
      exact hinj key hk other ((List.Perm.mem_iff h₂).mp hother) n hs hn
    · exact Or.inl ⟨(List.Perm.mem_iff h₂).mpr hk, hs⟩

/-! ## Re-keying the response -/

theorem rekeyLoop_cons (field : MarshalMap) (rest : List MarshalMap) (fields : MarshalMap) :
    rekeyLoop (field :: rest) fields =
      match fieldIdOf field with
      | some id => rekeyLoop rest (assocSet id (JValue.obj field) fields)
      | none => none := by
  unfold fieldIdOf
  rw [rekeyLoop]
  cases assocGet "fieldId" field with
  | none => rfl
  | some v => cases v <;> rfl

theorem rekeyLoop_some (values : List MarshalMap) (fields : MarshalMap)
    (h : ∀ field ∈ values, ∃ id, fieldIdOf field = some id) :
    ∃ result, rekeyLoop values fields = some result := by
  induction values generalizing fields with
  | nil => exact ⟨fields, rfl⟩
  | cons field rest ih =>
    obtain ⟨id, hid⟩ := h field (List.mem_cons_self _ _)
    rw [rekeyLoop_cons, hid]
    exact ih _ (fun f hf => h f (List.mem_cons_of_mem _ hf))

/-- A blob without a string `fieldId` makes the loop panic. -/
theorem rekeyLoop_none (values : List MarshalMap) (fields : MarshalMap)
    (h : ∃ field ∈ values, fieldIdOf field = none) : rekeyLoop values fields = none := by
  induction values generalizing fields with
  | nil =>
    obtain ⟨f, hf, _⟩ := h
    cases hf
  | cons field rest ih =>
    rw [rekeyLoop_cons]
    cases hid : fieldIdOf field with
    | none => rfl
    | some id =>
      obtain ⟨f, hf, hnone⟩ := h
      rcases List.mem_cons.mp hf with hEq | hrest
      · subst hEq
        rw [hid] at hnone
        cases hnone
      · exact ih _ ⟨f, hrest, hnone⟩

theorem rekeyLoop_spec (values : List MarshalMap) (fields result : MarshalMap)
    (h : rekeyLoop values fields = some result) :
    (∀ k, k ∈ assocKeys result ↔
        k ∈ assocKeys fields ∨ ∃ field ∈ values, fieldIdOf field = some k) ∧
    (∀ k blob, assocGet k result = some blob →
        (assocGet k fields = some blob ∧ ∀ field ∈ values, fieldIdOf field ≠ some k) ∨
        ∃ before field after, values = before ++ field :: after ∧
          blob = JValue.obj field ∧ fieldIdOf field = some k ∧
          ∀ later ∈ after, fieldIdOf later ≠ some k) := by
  induction values generalizing fields with
  | nil =>
    simp [rekeyLoop] at h
    subst h
    simp
  | cons field rest ih =>
    rw [rekeyLoop_cons] at h
    cases hid : fieldIdOf field with
    | none => simp [hid] at h
    | some id =>
      simp only [hid] at h
      obtain ⟨hkeys, hget⟩ := ih _ h
      constructor
      · intro k
        rw [hkeys k, assocKeys_assocSet]
        constructor
        · rintro ((hk | hk) | ⟨f, hf, hfk⟩)
          · exact Or.inr ⟨field, List.mem_cons_self _ _, by rw [hid, hk]⟩
          · exact Or.inl hk
          · exact Or.inr ⟨f, List.mem_cons_of_mem _ hf, hfk⟩
        · rintro (hk | ⟨f, hf, hfk⟩)
          · exact Or.inl (Or.inr hk)
          · rcases List.mem_cons.mp hf with hEq | hrest
            · subst hEq
              rw [hid] at hfk
              cases hfk
              exact Or.inl (Or.inl rfl)
            · exact Or.inr ⟨f, hrest, hfk⟩
      · intro k blob hblob
        rcases hget k blob hblob with ⟨hacc, hnone⟩ | ⟨before, f, after, hsplit, hb, hf, hafter⟩
        · rw [assocGet_assocSet] at hacc
          by_cases hEq : id = k
          · subst hEq
            simp at hacc
            right
            exact ⟨[], field, rest, rfl, hacc.symm, hid, hnone⟩
          · simp [hEq] at hacc
            left
            refine ⟨hacc, ?_⟩
            intro f hf
            rcases List.mem_cons.mp hf with hf' | hf'
            · subst hf'
              rw [hid]
              intro hc
              cases hc
              exact hEq rfl
            · exact hnone f hf'
        · right
          exact ⟨field :: before, f, after, by rw [hsplit]; rfl, hb, hf, hafter⟩

/-- C15: when every blob of the decoded response has a string `fieldId`,
`GetIssueTypeMetaWithOptions` returns a record whose identity is copied from the
issue type and whose `Fields` has exactly the field ids of the response as its
keys, each mapped to the last blob of the response that carries it. -/
theorem getIssueTypeMeta_spec (issueType : IssueType) (values : List MarshalMap)
    (h : ∀ field ∈ values, ∃ id, fieldIdOf field = some id) :
    ∃ result, GetIssueTypeMetaWithOptions issueType (Except.ok values) = Outcome.ok result ∧
      result.Self = issueType.Self ∧ result.Id = issueType.ID ∧
      result.Description = issueType.Description ∧ result.IconUrl = issueType.IconURL ∧
      result.Name = issueType.Name ∧ result.Subtasks = issueType.Subtask ∧
      (∀ k, k ∈ assocKeys result.Fields ↔ ∃ field ∈ values, fieldIdOf field = some k) ∧
      (∀ k ∈ assocKeys result.Fields, ∃ before field after,
        values = before ++ field :: after ∧ fieldIdOf field = some k ∧
        (∀ later ∈ after, fieldIdOf later ≠ some k) ∧
        assocGet k result.Fields = some (JValue.obj field)) := by
  obtain ⟨fields, hfields⟩ := rekeyLoop_some values [] h
  obtain ⟨hkeys, hget⟩ := rekeyLoop_spec values [] fields hfields
  refine ⟨metaFor issueType fields, ?_, rfl, rfl, rfl, rfl, rfl, rfl, ?_, ?_⟩
  · simp [GetIssueTypeMetaWithOptions, hfields]
  · intro k
    rw [show (metaFor issueType fields).Fields = fields from rfl, hkeys k]
    simp [assocKeys]
  · intro k hk
    have hk' : k ∈ assocKeys fields := hk
    have hsome : (assocGet k fields).isSome = true := (assocGet_isSome_iff k fields).mpr hk'
    cases hblob : assocGet k fields with
    | none => simp [hblob] at hsome
    | some blob =>
      rcases hget k blob hblob with ⟨hacc, _⟩ | ⟨before, f, after, hsplit, hb, hf, hafter⟩
      · simp [assocGet] at hacc
      · refine ⟨before, f, after, hsplit, hf, hafter, ?_⟩
        rw [show (metaFor issueType fields).Fields = fields from rfl, hblob, hb]

/-- C15, scenario: the field id `summary` occurs twice and is mapped to the
last blob that carries it. -/
theorem getIssueTypeMeta_spec_witness :
    GetIssueTypeMetaWithOptions helpIssueType (Except.ok sampleValues)
      = Outcome.ok (metaFor helpIssueType
          [("summary", JValue.obj (responseBlob "summary" false "Short text")),
            ("labels", JValue.obj (responseBlob "labels" false "Labels"))]) ∧
    (∀ field ∈ sampleValues, ∃ id, fieldIdOf field = some id) ∧
    ∃ result, GetIssueTypeMetaWithOptions helpIssueType (Except.ok sampleValues)
        = Outcome.ok result ∧
      result.Self = helpIssueType.Self ∧ result.Id = helpIssueType.ID ∧
      result.Description = helpIssueType.Description ∧
      result.IconUrl = helpIssueType.IconURL ∧
      result.Name = helpIssueType.Name ∧ result.Subtasks = helpIssueType.Subtask ∧
      (∀ k, k ∈ assocKeys result.Fields ↔ ∃ field ∈ sampleValues, fieldIdOf field = some k) ∧
      (∀ k ∈ assocKeys result.Fields, ∃ before field after,
        sampleValues = before ++ field :: after ∧ fieldIdOf field = some k ∧
        (∀ later ∈ after, fieldIdOf later ≠ some k) ∧
        assocGet k result.Fields = some (JValue.obj field)) :=
  have hids : ∀ field ∈ sampleValues, ∃ id, fieldIdOf field = some id := by
    intro field hf
    simp only [sampleValues, List.mem_cons, List.mem_singleton, List.not_mem_nil,
      or_false] at hf
    rcases hf with h | h | h <;> subst h
    · exact ⟨"summary", rfl⟩
    · exact ⟨"labels", rfl⟩
    · exact ⟨"summary", rfl⟩
  ⟨rfl, hids, getIssueTypeMeta_spec helpIssueType sampleValues hids⟩

/-- C16: a blob without `fieldId`, and a blob whose `fieldId` is a number, make
`GetIssueTypeMetaWithOptions` panic in the type assertion
`field["fieldId"].(string)`; no error is returned to the caller. A failed
exchange, in contrast, is returned as an error. -/
theorem getIssueTypeMeta_panics_on_malformed_field :
    GetIssueTypeMetaWithOptions helpIssueType
      (Except.ok [responseBlob "summary" true "Summary",
        [("required", JValue.bool false), ("name", JValue.str "Labels")]]) = Outcome.panic ∧
    GetIssueTypeMetaWithOptions helpIssueType
      (Except.ok [[("fieldId", JValue.num 10806), ("required", JValue.bool true),
        ("name", JValue.str "Epic Link")]]) = Outcome.panic ∧
    GetIssueTypeMetaWithOptions helpIssueType (Except.error (Error.transport "timeout"))
      = Outcome.error (Error.transport "timeout") :=
  ⟨rfl, rfl, rfl⟩

/-! ## The result pair of `CheckCompleteAndAvailable` -/

/-- C17: in every run `CheckCompleteAndAvailable` returns true exactly when the
error it returns is nil. -/
theorem checkCompleteAndAvailable_true_iff_nil (t : MetaIssueType)
    (config : List (String × String)) (order₁ order₂ : List String) :
    (CheckCompleteAndAvailableIn t config order₁ order₂).1 = true ↔
      (CheckCompleteAndAvailableIn t config order₁ order₂).2 = none := by
  cases hm : GetMandatoryFieldsIn t order₁ with
  | error e => simp [CheckCompleteAndAvailableIn, hm]
  | ok mandatory =>
    cases ha : GetAllFieldsIn t order₂ with
    | error e => simp [CheckCompleteAndAvailableIn, hm, ha]
    | ok all =>
      rw [check_of_maps t config order₁ order₂ mandatory all hm ha]
      split_ifs <;> simp

theorem bool_error_kind (fields : MarshalMap) (path : String) (e : Error)
    (h : fields.Bool path = Except.error e) : e.kind = ErrorKind.decode := by
  unfold MarshalMap.Bool at h
  cases hv : fields.Value path with
  | none =>
    simp [hv] at h
    subst h
    rfl
  | some v =>
    cases v <;> simp [hv] at h <;> (subst h; rfl)

theorem string_error_kind (fields : MarshalMap) (path : String) (e : Error)
    (h : fields.String path = Except.error e) : e.kind = ErrorKind.decode := by
  unfold MarshalMap.String at h
  cases hv : fields.Value path with
  | none =>
    simp [hv] at h
    subst h
    rfl
  | some v =>
    cases v <;> simp [hv] at h <;> (subst h; rfl)

theorem mandatoryLoop_error_kind (fields : MarshalMap) (keys : List String)
    (ret : List (String × String)) (e : Error)
    (h : mandatoryLoop fields keys ret = Except.error e) : e.kind = ErrorKind.decode := by
  induction keys generalizing ret with
  | nil => simp [mandatoryLoop] at h
  | cons first rest ih =>
    cases hB : fields.Bool (first ++ "/required") with
    | error e' =>
      simp [mandatoryLoop, hB] at h
      subst h
      exact bool_error_kind _ _ _ hB
    | ok required =>
      cases required with
      | false =>
        simp only [mandatoryLoop, hB] at h
        exact ih _ h
      | true =>
        cases hS : fields.String (first ++ "/name") with
        | error e' =>
          simp [mandatoryLoop, hB, hS] at h
          subst h
          exact string_error_kind _ _ _ hS
        | ok name =>
          simp only [mandatoryLoop, hB, hS, if_true] at h
          exact ih _ h

theorem allLoop_error_kind (fields : MarshalMap) (keys : List String)
    (ret : List (String × String)) (e : Error)
    (h : allLoop fields keys ret = Except.error e) : e.kind = ErrorKind.decode := by
  induction keys generalizing ret with
  | nil => simp [allLoop] at h
  | cons first rest ih =>
    cases hS : fields.String (first ++ "/name") with
    | error e' =>
      simp [allLoop, hS] at h
      subst h
      exact string_error_kind _ _ _ hS
    | ok name =>
      simp only [allLoop, hS] at h
      exact ih _ h

/-- C18: two candidates with the same keys get the same boolean and an error of
the same kind from `CheckCompleteAndAvailable`, whatever their values and
whatever the iteration orders of the two calls. -/
theorem check_depends_on_keys_only (t : MetaIssueType) (config₁ config₂ : List (String × String))
    (order₁ order₂ order₃ order₄ : List String)
    (h₁ : RangeOrder t order₁) (h₂ : RangeOrder t order₂)
    (h₃ : RangeOrder t order₃) (h₄ : RangeOrder t order₄)
    (hkeys : ∀ k, k ∈ assocKeys config₁ ↔ k ∈ assocKeys config₂) :
    (CheckCompleteAndAvailableIn t config₁ order₁ order₂).1 =
      (CheckCompleteAndAvailableIn t config₂ order₃ order₄).1 ∧
    (CheckCompleteAndAvailableIn t config₁ order₁ order₂).2.map Error.kind =
      (CheckCompleteAndAvailableIn t config₂ order₃ order₄).2.map Error.kind := by
  cases hm : GetMandatoryFieldsIn t order₁ with
  | error e =>
    obtain ⟨e', hm'⟩ := except_error_of_not_ok (GetMandatoryFieldsIn t order₃) (by
      intro m hok
      obtain ⟨m₁, hm₁⟩ := (mandatory_ok_iff t order₁ h₁).mpr
        ((mandatory_ok_iff t order₃ h₃).mp ⟨m, hok⟩)
      rw [hm] at hm₁
      cases hm₁)
    have k₁ := mandatoryLoop_error_kind _ _ _ _ hm
    have k₂ := mandatoryLoop_error_kind _ _ _ _ hm'
    simp [CheckCompleteAndAvailableIn, hm, hm', k₁, k₂]
  | ok mand =>
    obtain ⟨mand', hm'⟩ := (mandatory_ok_iff t order₃ h₃).mpr
      ((mandatory_ok_iff t order₁ h₁).mp ⟨mand, hm⟩)
    cases ha : GetAllFieldsIn t order₂ with
    | error e =>
      obtain ⟨e', ha'⟩ := except_error_of_not_ok (GetAllFieldsIn t order₄) (by
        intro m hok
        obtain ⟨m₁, hm₁⟩ := (all_ok_iff t order₂ h₂).mpr ((all_ok_iff t order₄ h₄).mp ⟨m, hok⟩)
        rw [ha] at hm₁
        cases hm₁)
      have k₁ := allLoop_error_kind _ _ _ _ ha
      have k₂ := allLoop_error_kind _ _ _ _ ha'
      simp [CheckCompleteAndAvailableIn, hm, hm', ha, ha', k₁, k₂]
    | ok all =>
      obtain ⟨all', ha'⟩ := (all_ok_iff t order₄ h₄).mpr ((all_ok_iff t order₂ h₂).mp ⟨all, ha⟩)
      have e₁ : (∀ n ∈ assocKeys mand, n ∈ assocKeys config₁) ↔
          (∀ n ∈ assocKeys mand', n ∈ assocKeys config₂) := by
        constructor
        · intro h n hn
          exact (hkeys n).mp (h n ((mandatory_keys_iff t order₁ mand h₁ hm n).mpr
            ((mandatory_keys_iff t order₃ mand' h₃ hm' n).mp hn)))
        · intro h n hn
          exact (hkeys n).mpr (h n ((mandatory_keys_iff t order₃ mand' h₃ hm' n).mpr
            ((mandatory_keys_iff t order₁ mand h₁ hm n).mp hn)))
      have e₂ : (∀ n ∈ assocKeys config₁, n ∈ assocKeys all) ↔
          (∀ n ∈ assocKeys config₂, n ∈ assocKeys all') := by
        constructor
        · intro h n hn
          exact (all_keys_iff t order₄ all' h₄ ha' n).mpr
            ((all_keys_iff t order₂ all h₂ ha n).mp (h n ((hkeys n).mpr hn)))
        · intro h n hn
          exact (all_keys_iff t order₂ all h₂ ha n).mpr
            ((all_keys_iff t order₄ all' h₄ ha' n).mp (h n ((hkeys n).mp hn)))
      rw [check_of_maps t config₁ order₁ order₂ mand all hm ha,
        check_of_maps t config₂ order₃ order₄ mand' all' hm' ha']
      by_cases c₁ : ∀ n ∈ assocKeys mand, n ∈ assocKeys config₁
      · have c₁' := e₁.mp c₁
        by_cases c₂ : ∀ n ∈ assocKeys config₁, n ∈ assocKeys all
        · have c₂' := e₂.mp c₂
          rw [if_pos c₁, if_pos c₂, if_pos c₁', if_pos c₂']
          exact ⟨rfl, rfl⟩
        · have c₂' : ¬ ∀ n ∈ assocKeys config₂, n ∈ assocKeys all' := fun h => c₂ (e₂.mpr h)
          rw [if_pos c₁, if_neg c₂, if_pos c₁', if_neg c₂']
          exact ⟨rfl, rfl⟩
      · have c₁' : ¬ ∀ n ∈ assocKeys mand', n ∈ assocKeys config₂ := fun h => c₁ (e₁.mpr h)
        rw [if_neg c₁, if_neg c₁']
        exact ⟨rfl, rfl⟩

/-- Within one run, candidates with the same keys get the very same result. -/
theorem check_same_orders (t : MetaIssueType) (config₁ config₂ : List (String × String))
    (order₁ order₂ : List String)
    (hkeys : ∀ k, k ∈ assocKeys config₁ ↔ k ∈ assocKeys config₂) :
    CheckCompleteAndAvailableIn t config₁ order₁ order₂ =
      CheckCompleteAndAvailableIn t config₂ order₁ order₂ := by
  cases hm : GetMandatoryFieldsIn t order₁ with
  | error e => simp [CheckCompleteAndAvailableIn, hm]
  | ok mand =>
    cases ha : GetAllFieldsIn t order₂ with
    | error e => simp [CheckCompleteAndAvailableIn, hm, ha]
    | ok all =>
      have e₁ : (∀ n ∈ assocKeys mand, n ∈ assocKeys config₁) ↔
          (∀ n ∈ assocKeys mand, n ∈ assocKeys config₂) :=
        ⟨fun h n hn => (hkeys n).mp (h n hn), fun h n hn => (hkeys n).mpr (h n hn)⟩
      have e₂ : (∀ n ∈ assocKeys config₁, n ∈ assocKeys all) ↔
          (∀ n ∈ assocKeys config₂, n ∈ assocKeys all) :=
        ⟨fun h n hn => h n ((hkeys n).mpr hn), fun h n hn => h n ((hkeys n).mp hn)⟩
      rw [check_of_maps t config₁ order₁ order₂ mand all hm ha,
        check_of_maps t config₂ order₁ order₂ mand all hm ha]
      simp only [e₁, e₂]

/-- C18, scenario: the candidates `{"Summary": "f1"}` and
`{"Summary": "customfield_1"}` are both accepted. -/
theorem check_depends_on_keys_only_witness :
    RangeOrder sampleMeta ["f1", "f2"] ∧ RangeOrder sampleMeta ["f2", "f1"] ∧
    (∀ k, k ∈ assocKeys [("Summary", "f1")] ↔ k ∈ assocKeys [("Summary", "customfield_1")]) ∧
    (CheckCompleteAndAvailableIn sampleMeta [("Summary", "f1")] ["f1", "f2"] ["f1", "f2"]).1 =
      (CheckCompleteAndAvailableIn sampleMeta [("Summary", "customfield_1")]
        ["f2", "f1"] ["f2", "f1"]).1 ∧
    (CheckCompleteAndAvailableIn sampleMeta [("Summary", "f1")]
        ["f1", "f2"] ["f1", "f2"]).2.map Error.kind =
      (CheckCompleteAndAvailableIn sampleMeta [("Summary", "customfield_1")]
        ["f2", "f1"] ["f2", "f1"]).2.map Error.kind :=
  ⟨List.Perm.refl _, List.Perm.swap "f1" "f2" [], fun _ => Iff.rfl,
    check_depends_on_keys_only sampleMeta [("Summary", "f1")] [("Summary", "customfield_1")]
      ["f1", "f2"] ["f1", "f2"] ["f2", "f1"] ["f2", "f1"] (List.Perm.refl _) (List.Perm.refl _)
      (List.Perm.swap "f1" "f2" []) (List.Perm.swap "f1" "f2" []) (fun _ => Iff.rfl)⟩

/-! ## The complete field map as the inverse of the naming -/

theorem fieldName_nameOf (t : MetaIssueType) (key n : String) (h : ReadName t key n) :
    nameOf t key = n := by
  unfold nameOf
  unfold ReadName at h
  rw [h]

theorem all_keys_toFinset (t : MetaIssueType) (order : List String)
    (m : List (String × String)) (hm : GetAllFieldsIn t order = Except.ok m) :
    (assocKeys m).toFinset = order.toFinset.image (nameOf t) := by
  have hall : ∀ key ∈ order, ReadName t key (nameOf t key) := by
    intro key hk
    obtain ⟨n, hn⟩ := (allLoop_ok_iff t.Fields order []).mp ⟨m, hm⟩ key hk
    have : nameOf t key = n := fieldName_nameOf t key n hn
    rw [this]
    exact hn
  ext n
  simp only [List.mem_toFinset, Finset.mem_image]
  rw [(allLoop_spec t.Fields order [] m hm).1 n]
  constructor
  · rintro (hn | ⟨k, hk, hs⟩)
    · simp [assocKeys] at hn
    · exact ⟨k, hk, fieldName_nameOf t k n hs⟩
  · rintro ⟨k, hk, hs⟩
    exact Or.inr ⟨k, hk, hs ▸ hall k hk⟩

/-- When the name of every field can be read, `GetAllFields` succeeds; if no two
field keys share a name the returned map sends the name of every field key to
that key and has as many entries as `Fields`, and if two field keys share a
name it has strictly fewer entries than `Fields`. `Fields` is a map: its keys are
pairwise distinct. -/
theorem all_inverts_reads (t : MetaIssueType) (order : List String)
    (ho : RangeOrder t order) (hmap : (assocKeys t.Fields).Nodup)
    (hall : ∀ key ∈ assocKeys t.Fields, ∃ n, ReadName t key n) :
    ∃ m, GetAllFieldsIn t order = Except.ok m ∧
      ((∀ key ∈ assocKeys t.Fields, ∀ other ∈ assocKeys t.Fields, ∀ n,
          ReadName t key n → ReadName t other n → other = key) →
        (∀ key ∈ assocKeys t.Fields, ∀ n, ReadName t key n → assocGet n m = some key) ∧
          m.length = t.Fields.length) ∧
      ((∃ key ∈ assocKeys t.Fields, ∃ other ∈ assocKeys t.Fields, ∃ n,
          other ≠ key ∧ ReadName t key n ∧ ReadName t other n) →
        m.length < t.Fields.length) := by
  obtain ⟨m, hm⟩ := (all_ok_iff t order ho).mpr hall
  have hlen₁ : m.length = (order.toFinset.image (nameOf t)).card := by
    rw [← all_keys_toFinset t order m hm, List.toFinset_card_of_nodup (all_nodup t order m hm)]
    simp [assocKeys]
  have hlen₂ : t.Fields.length = order.toFinset.card := by
    rw [List.toFinset_card_of_nodup ((List.Perm.nodup_iff ho).mpr hmap), List.Perm.length_eq ho]
    simp [assocKeys]
  have hname : ∀ key ∈ order, ReadName t key (nameOf t key) := by
    intro key hk
    obtain ⟨n, hn⟩ := hall key ((List.Perm.mem_iff ho).mp hk)
    have : nameOf t key = n := fieldName_nameOf t key n hn
    rw [this]
    exact hn
  refine ⟨m, hm, ?_, ?_⟩
  · intro hinj
    constructor
    · intro key hk n hn
      apply allLoop_get_unique t.Fields order [] m n key hm
      · intro other hother hon
        exact hinj key hk other ((List.Perm.mem_iff ho).mp hother) n hn hon
      · exact Or.inl ⟨(List.Perm.mem_iff ho).mpr hk, hn⟩
    · rw [hlen₁, hlen₂]
      apply Finset.card_image_of_injOn
      intro a ha b hb hab
      have ha' : a ∈ order := by simpa using ha
      have hb' : b ∈ order := by simpa using hb
      have hab' : nameOf t a = nameOf t b := hab
      exact hinj b ((List.Perm.mem_iff ho).mp hb') a ((List.Perm.mem_iff ho).mp ha')
        (nameOf t b) (hname b hb') (hab' ▸ hname a ha')
  · rintro ⟨key, hk, other, hother, n, hne, hn, hon⟩
    rw [hlen₁, hlen₂]
    apply lt_of_le_of_ne Finset.card_image_le
    intro hcard
    have hinj := Finset.injOn_of_card_image_eq hcard
    have hk' : key ∈ (↑order.toFinset : Set String) := by
      simpa using (List.Perm.mem_iff ho).mpr hk
    have ho' : other ∈ (↑order.toFinset : Set String) := by
      simpa using (List.Perm.mem_iff ho).mpr hother
    apply hne
    apply hinj ho' hk'
    show nameOf t other = nameOf t key
    rw [fieldName_nameOf t other n hon, fieldName_nameOf t key n hn]

/-! ## Decode failures come first -/

/-- C20: whatever the candidate, a failure of `GetMandatoryFields` is returned by
`CheckCompleteAndAvailable` together with false; so is a failure of
`GetAllFields` when `GetMandatoryFields` succeeds; and when both fail the error
of `GetMandatoryFields` is the one returned. -/
theorem decode_error_first (t : MetaIssueType) (config : List (String × String))
    (order₁ order₂ : List String) :
    (∀ err, GetMandatoryFieldsIn t order₁ = Except.error err →
      CheckCompleteAndAvailableIn t config order₁ order₂ = (false, some err)) ∧
    (∀ mandatory err, GetMandatoryFieldsIn t order₁ = Except.ok mandatory →
      GetAllFieldsIn t order₂ = Except.error err →
      CheckCompleteAndAvailableIn t config order₁ order₂ = (false, some err)) ∧
    (∀ err₁ err₂, GetMandatoryFieldsIn t order₁ = Except.error err₁ →
      GetAllFieldsIn t order₂ = Except.error err₂ →
      CheckCompleteAndAvailableIn t config order₁ order₂ = (false, some err₁)) := by
  refine ⟨?_, ?_, ?_⟩
  · intro err hm
    simp [CheckCompleteAndAvailableIn, hm]
  · intro mandatory err hm ha
    simp [CheckCompleteAndAvailableIn, hm, ha]
  · intro err₁ err₂ hm _
    simp [CheckCompleteAndAvailableIn, hm]

/-- C20, scenarios: an optional field without `name` lets `GetMandatoryFields`
succeed and `GetAllFields` fail, and a candidate that holds every mandatory name
is answered with that decode error; on an empty blob both fail and the error
of `GetMandatoryFields` is returned, also for the empty candidate. -/
theorem decode_error_first_witness :
    GetMandatoryFields optionalNamelessMeta = Except.ok [("Summary", "f1")] ∧
    GetAllFields optionalNamelessMeta = Except.error (Error.keyNotFound "f2/name") ∧
    CheckCompleteAndAvailable optionalNamelessMeta [("Summary", "f1")]
      = (false, some (Error.keyNotFound "f2/name")) ∧
    GetMandatoryFields emptyBlobMeta = Except.error (Error.keyNotFound "f1/required") ∧
    GetAllFields emptyBlobMeta = Except.error (Error.keyNotFound "f1/name") ∧
    CheckCompleteAndAvailable emptyBlobMeta []
      = (false, some (Error.keyNotFound "f1/required")) ∧
    CheckCompleteAndAvailableIn optionalNamelessMeta [("Summary", "f1")] ["f1", "f2"]
      ["f1", "f2"] = (false, some (Error.keyNotFound "f2/name")) :=
  ⟨rfl, rfl, by decide, rfl, rfl, by decide,
    (decode_error_first optionalNamelessMeta [("Summary", "f1")] ["f1", "f2"]
      ["f1", "f2"]).2.1 [("Summary", "f1")] (Error.keyNotFound "f2/name") rfl rfl⟩

end Jira

namespace Jira


/-! ## From what the code reads to what the blobs hold

The theorems of this part speak about the attributes of the field blobs
(`FieldRequired`, `FieldName`). They hold for field keys without a character of
the path syntax (`PlainKeys`); a key with a `/` in it is read as a path, and
the scenarios `slashKeyMeta`, `slashTwoMeta` and `aliasMeta` show what goes wrong
then. -/

theorem plain_required (t : MetaIssueType) (hplain : PlainKeys t) (key : String)
    (hk : key ∈ assocKeys t.Fields) (b : Bool) :
    ReadRequired t key b ↔ FieldRequired t key b :=
  fieldRequired_iff_blob t key b (hplain key hk).1

theorem plain_name (t : MetaIssueType) (hplain : PlainKeys t) (key : String)
    (hk : key ∈ assocKeys t.Fields) (n : String) :
    ReadName t key n ↔ FieldName t key n :=
  fieldName_iff_blob t key n (hplain key hk).1

theorem allLoopRun_eq (fields : MarshalMap) (keys : List String)
    (ret : List (String × String)) :
    allLoopRun fields keys ret = (allLoop fields keys ret, fields) := by
  induction keys generalizing ret with
  | nil => rfl
  | cons key rest ih =>
    cases hS : fields.String (key ++ "/name") with
    | error e => simp [allLoopRun, allLoop, hS]
    | ok name => simp [allLoopRun, allLoop, hS, ih]

/-- `GetAllFields` leaves `t.Fields` as it found it. -/
theorem getAllFieldsRun_eq (t : MetaIssueType) (order : List String) :
    GetAllFieldsRun t order = (GetAllFieldsIn t order, t.Fields) :=
  allLoopRun_eq t.Fields order []

/-- C1, amended: when no field key holds `/` or `[` and every field blob has a
boolean `required` and a string `name`, `CheckCompleteAndAvailable` returns true
exactly when every name of a required field is a key of `config` and every key
of `config` is the name of some field, whatever the orders in which the two
loops over `t.Fields` visit the keys. -/
theorem checkCompleteAndAvailable_true_iff (t : MetaIssueType)
    (config : List (String × String)) (order₁ order₂ : List String)
    (h₁ : RangeOrder t order₁) (h₂ : RangeOrder t order₂) (hplain : PlainKeys t)
    (hfields : ∀ key ∈ assocKeys t.Fields,
      (∃ b, FieldRequired t key b) ∧ ∃ n, FieldName t key n) :
    (CheckCompleteAndAvailableIn t config order₁ order₂).1 = true ↔
      (∀ key ∈ assocKeys t.Fields, ∀ n, FieldRequired t key true → FieldName t key n →
        n ∈ assocKeys config) ∧
      (∀ n ∈ assocKeys config, ∃ key ∈ assocKeys t.Fields, FieldName t key n) := by
  have hreads : ∀ key ∈ assocKeys t.Fields,
      (∃ b, ReadRequired t key b) ∧ ∃ n, ReadName t key n := by
    intro key hk
    obtain ⟨⟨b, hb⟩, ⟨n, hn⟩⟩ := hfields key hk
    exact ⟨⟨b, (plain_required t hplain key hk b).mpr hb⟩,
      ⟨n, (plain_name t hplain key hk n).mpr hn⟩⟩
  rw [check_true_iff_reads t config order₁ order₂ h₁ h₂ hreads]
  constructor
  · rintro ⟨hm, ha⟩
    refine ⟨fun key hk n hb hn => hm key hk n ((plain_required t hplain key hk true).mpr hb)
      ((plain_name t hplain key hk n).mpr hn), ?_⟩
    intro n hn
    obtain ⟨key, hk, hkn⟩ := ha n hn
    exact ⟨key, hk, (plain_name t hplain key hk n).mp hkn⟩
  · rintro ⟨hm, ha⟩
    refine ⟨fun key hk n hb hn => hm key hk n ((plain_required t hplain key hk true).mp hb)
      ((plain_name t hplain key hk n).mp hn), ?_⟩
    intro n hn
    obtain ⟨key, hk, hkn⟩ := ha n hn
    exact ⟨key, hk, (plain_name t hplain key hk n).mpr hkn⟩

/-- C2, amended: when no field key holds `/` or `[`, every field blob has a
boolean `required` and every required field has a string `name`,
`GetMandatoryFields` succeeds in every iteration order, the keys of the returned
map are exactly the names of the required fields, and each of them is mapped to
the key of a required field of that name. -/
theorem getMandatoryFields_spec (t : MetaIssueType) (order : List String)
    (ho : RangeOrder t order) (hplain : PlainKeys t)
    (hreq : ∀ key ∈ assocKeys t.Fields, ∃ b, FieldRequired t key b)
    (hname : ∀ key ∈ assocKeys t.Fields, FieldRequired t key true → ∃ n, FieldName t key n) :
    ∃ m, GetMandatoryFieldsIn t order = Except.ok m ∧
      (∀ n, n ∈ assocKeys m ↔
        ∃ key ∈ assocKeys t.Fields, FieldRequired t key true ∧ FieldName t key n) ∧
      (∀ n ∈ assocKeys m, ∃ key, assocGet n m = some key ∧ key ∈ assocKeys t.Fields ∧
        FieldRequired t key true ∧ FieldName t key n) := by
  obtain ⟨m, hm, hkeys, hvals⟩ := mandatory_spec_reads t order ho
    (fun key hk => by
      obtain ⟨b, hb⟩ := hreq key hk
      exact ⟨b, (plain_required t hplain key hk b).mpr hb⟩)
    (fun key hk hb => by
      obtain ⟨n, hn⟩ := hname key hk ((plain_required t hplain key hk true).mp hb)
      exact ⟨n, (plain_name t hplain key hk n).mpr hn⟩)
  refine ⟨m, hm, ?_, ?_⟩
  · intro n
    rw [hkeys n]
    constructor
    · rintro ⟨key, hk, hb, hn⟩
      exact ⟨key, hk, (plain_required t hplain key hk true).mp hb,
        (plain_name t hplain key hk n).mp hn⟩
    · rintro ⟨key, hk, hb, hn⟩
      exact ⟨key, hk, (plain_required t hplain key hk true).mpr hb,
        (plain_name t hplain key hk n).mpr hn⟩
  · intro n hn
    obtain ⟨key, hget, hk, hb, hkn⟩ := hvals n hn
    exact ⟨key, hget, hk, (plain_required t hplain key hk true).mp hb,
      (plain_name t hplain key hk n).mp hkn⟩

/-- C3, amended: when no field key holds `/` or `[`, `GetAllFields` succeeds, in
every iteration order, exactly when every field blob has a string `name`; the
keys of the returned map are then exactly the names of the fields, and each of
them is mapped to the key of a field of that name. -/
theorem getAllFields_spec (t : MetaIssueType) (order : List String)
    (ho : RangeOrder t order) (hplain : PlainKeys t) :
    ((∃ m, GetAllFieldsIn t order = Except.ok m) ↔
      ∀ key ∈ assocKeys t.Fields, ∃ n, FieldName t key n) ∧
    ∀ m, GetAllFieldsIn t order = Except.ok m →
      (∀ n, n ∈ assocKeys m ↔ ∃ key ∈ assocKeys t.Fields, FieldName t key n) ∧
      (∀ n ∈ assocKeys m, ∃ key, assocGet n m = some key ∧ key ∈ assocKeys t.Fields ∧
        FieldName t key n) := by
  obtain ⟨hiff, hspec⟩ := all_spec_reads t order ho
  constructor
  · rw [hiff]
    constructor
    · intro h key hk
      obtain ⟨n, hn⟩ := h key hk
      exact ⟨n, (plain_name t hplain key hk n).mp hn⟩
    · intro h key hk
      obtain ⟨n, hn⟩ := h key hk
      exact ⟨n, (plain_name t hplain key hk n).mpr hn⟩
  · intro m hm
    obtain ⟨hkeys, hvals⟩ := hspec m hm
    constructor
    · intro n
      rw [hkeys n]
      constructor
      · rintro ⟨key, hk, hn⟩
        exact ⟨key, hk, (plain_name t hplain key hk n).mp hn⟩
      · rintro ⟨key, hk, hn⟩
        exact ⟨key, hk, (plain_name t hplain key hk n).mpr hn⟩
    · intro n hn
      obtain ⟨key, hget, hk, hkn⟩ := hvals n hn
      exact ⟨key, hget, hk, (plain_name t hplain key hk n).mp hkn⟩

/-- C12, amended: when no field key holds `/` or `[` and some field blob has no
boolean `required` attribute, absent or of another type, `GetMandatoryFields`
returns an error and no map in every iteration order. -/
theorem getMandatoryFields_error_of_required (t : MetaIssueType) (order : List String)
    (ho : RangeOrder t order) (hplain : PlainKeys t)
    (h : ∃ key ∈ assocKeys t.Fields, ∀ b, ¬ FieldRequired t key b) :
    ∃ err, GetMandatoryFieldsIn t order = Except.error err := by
  obtain ⟨key, hk, hno⟩ := h
  exact mandatory_error_of_required_reads t order ho
    ⟨key, hk, fun b hb => hno b ((plain_required t hplain key hk b).mp hb)⟩

/-- C13, amended: when no field key holds `/` or `[` and some field blob whose
`required` is true has no string `name`, `GetMandatoryFields` returns an error in
every iteration order. -/
theorem getMandatoryFields_error_of_required_name (t : MetaIssueType) (order : List String)
    (ho : RangeOrder t order) (hplain : PlainKeys t)
    (h : ∃ key ∈ assocKeys t.Fields, FieldRequired t key true ∧ ∀ n, ¬ FieldName t key n) :
    ∃ err, GetMandatoryFieldsIn t order = Except.error err := by
  obtain ⟨key, hk, hreq, hno⟩ := h
  exact mandatory_error_of_required_name_reads t order ho
    ⟨key, hk, (plain_required t hplain key hk true).mpr hreq,
      fun n hn => hno n ((plain_name t hplain key hk n).mp hn)⟩

/-- C14, amended: when no field key holds `/` or `[` and no two field blobs share
a name, an evaluation of `GetAllFields` in any other iteration order succeeds as
well and returns a map with the same entries, and both evaluations leave
`t.Fields` as it was. -/
theorem getAllFields_deterministic (t : MetaIssueType) (order₁ order₂ : List String)
    (h₁ : RangeOrder t order₁) (h₂ : RangeOrder t order₂) (hplain : PlainKeys t)
    (hinj : ∀ key ∈ assocKeys t.Fields, ∀ other ∈ assocKeys t.Fields, ∀ n,
      FieldName t key n → FieldName t other n → other = key)
    (m₁ : List (String × String)) (hm₁ : GetAllFieldsIn t order₁ = Except.ok m₁) :
    ∃ m₂, GetAllFieldsIn t order₂ = Except.ok m₂ ∧ (∀ n, assocGet n m₂ = assocGet n m₁) ∧
      GetAllFieldsRun t order₁ = (Except.ok m₁, t.Fields) ∧
      GetAllFieldsRun t order₂ = (Except.ok m₂, t.Fields) := by
  obtain ⟨m₂, hm₂, hsame⟩ := all_deterministic_reads t order₁ order₂ h₁ h₂
    (fun key hk other ho n hn hon => hinj key hk other ho n
      ((plain_name t hplain key hk n).mp hn) ((plain_name t hplain other ho n).mp hon)) m₁ hm₁
  refine ⟨m₂, hm₂, hsame, ?_, ?_⟩
  · rw [getAllFieldsRun_eq, hm₁]
  · rw [getAllFieldsRun_eq, hm₂]

/-- C19, amended: when no field key holds `/` or `[` and every field blob has a
string `name`, `GetAllFields` succeeds; if no two field keys share a name the
returned map sends the name of every field key to that key and has as many
entries as `Fields`, and if two field keys share a name it has strictly fewer
entries than `Fields`. `Fields` is a map: its keys are pairwise distinct. -/
theorem getAllFields_inverts (t : MetaIssueType) (order : List String)
    (ho : RangeOrder t order) (hmap : (assocKeys t.Fields).Nodup) (hplain : PlainKeys t)
    (hall : ∀ key ∈ assocKeys t.Fields, ∃ n, FieldName t key n) :
    ∃ m, GetAllFieldsIn t order = Except.ok m ∧
      ((∀ key ∈ assocKeys t.Fields, ∀ other ∈ assocKeys t.Fields, ∀ n,
          FieldName t key n → FieldName t other n → other = key) →
        (∀ key ∈ assocKeys t.Fields, ∀ n, FieldName t key n → assocGet n m = some key) ∧
          m.length = t.Fields.length) ∧
      ((∃ key ∈ assocKeys t.Fields, ∃ other ∈ assocKeys t.Fields, ∃ n,
          other ≠ key ∧ FieldName t key n ∧ FieldName t other n) →
        m.length < t.Fields.length) := by
  obtain ⟨m, hm, hinv, hless⟩ := all_inverts_reads t order ho hmap
    (fun key hk => by
      obtain ⟨n, hn⟩ := hall key hk
      exact ⟨n, (plain_name t hplain key hk n).mpr hn⟩)
  refine ⟨m, hm, ?_, ?_⟩
  · intro hinj
    obtain ⟨hget, hlen⟩ := hinv (fun key hk other ho n hn hon => hinj key hk other ho n
      ((plain_name t hplain key hk n).mp hn) ((plain_name t hplain other ho n).mp hon))
    exact ⟨fun key hk n hn => hget key hk n ((plain_name t hplain key hk n).mpr hn), hlen⟩
  · rintro ⟨key, hk, other, ho, n, hne, hn, hon⟩
    exact hless ⟨key, hk, other, ho, n, hne, (plain_name t hplain key hk n).mpr hn,
      (plain_name t hplain other ho n).mpr hon⟩

/-! ## Scenarios for the attributes of the field blobs -/

theorem sampleMeta_plain : PlainKeys sampleMeta := by
  unfold PlainKeys
  decide

theorem sampleMeta_fields : ∀ key ∈ assocKeys sampleMeta.Fields,
    (∃ b, FieldRequired sampleMeta key b) ∧ ∃ n, FieldName sampleMeta key n := by
  intro key hk
  have hk' : key = "f1" ∨ key = "f2" := by
    simpa [assocKeys, sampleMeta, metaOf] using hk
  rcases hk' with h | h
  · subst h
    exact ⟨⟨true, rfl⟩, ⟨"Summary", rfl⟩⟩
  · subst h
    exact ⟨⟨false, rfl⟩, ⟨"Labels", rfl⟩⟩

theorem sampleMeta_names_differ : ∀ key ∈ assocKeys sampleMeta.Fields,
    ∀ other ∈ assocKeys sampleMeta.Fields, ∀ n,
      FieldName sampleMeta key n → FieldName sampleMeta other n → other = key := by
  intro key hk other ho n hn hon
  have hk' : key = "f1" ∨ key = "f2" := by
    simpa [assocKeys, sampleMeta, metaOf] using hk
  have ho' : other = "f1" ∨ other = "f2" := by
    simpa [assocKeys, sampleMeta, metaOf] using ho
  rcases hk' with h | h <;> rcases ho' with h' | h' <;> subst h <;> subst h'
  · rfl
  · have e₁ : some (JValue.str "Summary") = some (JValue.str n) := hn
    have e₂ : some (JValue.str "Labels") = some (JValue.str n) := hon
    injection e₁ with e₁
    injection e₂ with e₂
    injection e₁ with e₁
    injection e₂ with e₂
    exact absurd (e₁.trans e₂.symm) (by decide)
  · have e₁ : some (JValue.str "Labels") = some (JValue.str n) := hn
    have e₂ : some (JValue.str "Summary") = some (JValue.str n) := hon
    injection e₁ with e₁
    injection e₂ with e₂
    injection e₁ with e₁
    injection e₂ with e₂
    exact absurd (e₁.trans e₂.symm) (by decide)
  · rfl

theorem slashKeyMeta_fields : ∀ key ∈ assocKeys slashKeyMeta.Fields,
    FieldRequired slashKeyMeta key true ∧ FieldName slashKeyMeta key "Epic Link" := by
  intro key hk
  have hk' : key = "cf/10806" := by
    simpa [assocKeys, slashKeyMeta, metaOf] using hk
  subst hk'
  exact ⟨rfl, rfl⟩

/-- C1, as stated, fails: the only field, `cf/10806`, has a blob with
`required` = true and the name `Epic Link`, and the candidate holds exactly that
name, so that the mandatory names are among its keys and its keys among the
field names; `CheckCompleteAndAvailable` returns false with a decode error,
because the key is read as the path `cf` / `10806` / `required`. -/
theorem check_fails_on_slash_key :
    (∀ key ∈ assocKeys slashKeyMeta.Fields,
      (∃ b, FieldRequired slashKeyMeta key b) ∧ ∃ n, FieldName slashKeyMeta key n) ∧
    (∀ key ∈ assocKeys slashKeyMeta.Fields, ∀ n, FieldRequired slashKeyMeta key true →
      FieldName slashKeyMeta key n → n ∈ assocKeys [("Epic Link", "cf/10806")]) ∧
    (∀ n ∈ assocKeys [("Epic Link", "cf/10806")],
      ∃ key ∈ assocKeys slashKeyMeta.Fields, FieldName slashKeyMeta key n) ∧
    CheckCompleteAndAvailable slashKeyMeta [("Epic Link", "cf/10806")]
      = (false, some (Error.keyNotFound "cf/10806/required")) := by
  refine ⟨fun key hk => ⟨⟨true, (slashKeyMeta_fields key hk).1⟩,
    ⟨"Epic Link", (slashKeyMeta_fields key hk).2⟩⟩, ?_, ?_, by decide⟩
  · intro key hk n _ hn
    have e : some (JValue.str "Epic Link") = some (JValue.str n) :=
      (slashKeyMeta_fields key hk).2.symm.trans hn
    injection e with e
    injection e with e
    subst e
    decide
  · intro n hn
    have hn' : n = "Epic Link" := by simpa [assocKeys] using hn
    subst hn'
    exact ⟨"cf/10806", by decide, rfl⟩

/-- C2, as stated, fails: the blob of the field `cf/10806` has a boolean
`required` and a string `name`, and `GetMandatoryFields` fails on it. -/
theorem getMandatoryFields_fails_on_slash_key :
    (∀ key ∈ assocKeys slashKeyMeta.Fields, ∃ b, FieldRequired slashKeyMeta key b) ∧
    (∀ key ∈ assocKeys slashKeyMeta.Fields, FieldRequired slashKeyMeta key true →
      ∃ n, FieldName slashKeyMeta key n) ∧
    GetMandatoryFields slashKeyMeta = Except.error (Error.keyNotFound "cf/10806/required") :=
  ⟨fun key hk => ⟨true, (slashKeyMeta_fields key hk).1⟩,
    fun key hk _ => ⟨"Epic Link", (slashKeyMeta_fields key hk).2⟩, rfl⟩

/-- C3, as stated, fails: the blob of the only field, `cf/10806`, has a string
`name`, and `GetAllFields` does not succeed. -/
theorem getAllFields_fails_on_slash_key :
    (∀ key ∈ assocKeys slashKeyMeta.Fields, ∃ n, FieldName slashKeyMeta key n) ∧
    GetAllFields slashKeyMeta = Except.error (Error.keyNotFound "cf/10806/name") ∧
    ¬ ∃ m, GetAllFields slashKeyMeta = Except.ok m :=
  ⟨fun key hk => ⟨"Epic Link", (slashKeyMeta_fields key hk).2⟩, rfl,
    fun h => by
      obtain ⟨m, hm⟩ := h
      cases hm⟩

/-- C12, as stated, fails: the blob of the field `parent/child` has no `required`
attribute, and `GetMandatoryFields` succeeds in both iteration orders: the read
of `parent/child/required` descends into the entry `child` of the blob of the
field `parent` and finds `false` there. -/
theorem getMandatoryFields_ok_despite_missing_required :
    "parent/child" ∈ assocKeys aliasMeta.Fields ∧
    (∀ b, ¬ FieldRequired aliasMeta "parent/child" b) ∧
    GetMandatoryFields aliasMeta = Except.ok [] ∧
    GetMandatoryFieldsIn aliasMeta ["parent/child", "parent"] = Except.ok [] :=
  ⟨by decide, fun b hb => (by cases hb), rfl, rfl⟩

/-- C19, as stated, fails: the two fields have the different names `Epic Link`
and `Labels`, and `GetAllFields` returns no map in either iteration order. -/
theorem getAllFields_no_inverse_on_slash_key :
    (assocKeys slashTwoMeta.Fields).Nodup ∧
    FieldName slashTwoMeta "cf/10806" "Epic Link" ∧ FieldName slashTwoMeta "labels" "Labels" ∧
    assocKeys slashTwoMeta.Fields = ["cf/10806", "labels"] ∧
    GetAllFields slashTwoMeta = Except.error (Error.keyNotFound "cf/10806/name") ∧
    GetAllFieldsIn slashTwoMeta ["labels", "cf/10806"]
      = Except.error (Error.keyNotFound "cf/10806/name") :=
  ⟨by decide, rfl, rfl, rfl, rfl, rfl⟩

/-- C1, amended, scenario: the candidate `{"Summary": "f1"}` is accepted by the
scenario metadata, and the characterisation holds there with the second loop
running in the opposite order. -/
theorem checkCompleteAndAvailable_true_iff_witness :
    CheckCompleteAndAvailable sampleMeta [("Summary", "f1")] = (true, none) ∧
    RangeOrder sampleMeta ["f1", "f2"] ∧ RangeOrder sampleMeta ["f2", "f1"] ∧
    PlainKeys sampleMeta ∧
    ((CheckCompleteAndAvailableIn sampleMeta [("Summary", "f1")]
        ["f1", "f2"] ["f2", "f1"]).1 = true ↔
      (∀ key ∈ assocKeys sampleMeta.Fields, ∀ n, FieldRequired sampleMeta key true →
        FieldName sampleMeta key n → n ∈ assocKeys [("Summary", "f1")]) ∧
      (∀ n ∈ assocKeys [("Summary", "f1")],
        ∃ key ∈ assocKeys sampleMeta.Fields, FieldName sampleMeta key n)) :=
  ⟨by decide, List.Perm.refl _, List.Perm.swap "f1" "f2" [], sampleMeta_plain,
    checkCompleteAndAvailable_true_iff sampleMeta [("Summary", "f1")] ["f1", "f2"]
      ["f2", "f1"] (List.Perm.refl _) (List.Perm.swap "f1" "f2" []) sampleMeta_plain
      sampleMeta_fields⟩

/-- C2, amended, scenarios: the scenario metadata yields exactly
`{"Summary": "f1"}`, the documented field yields
`"Epic Link" → "customfield_10806"`, and the general statement holds for the
scenario metadata visited in the opposite order. -/
theorem getMandatoryFields_spec_witness :
    GetMandatoryFields sampleMeta = Except.ok [("Summary", "f1")] ∧
    GetMandatoryFields epicMeta = Except.ok [("Epic Link", "customfield_10806")] ∧
    RangeOrder sampleMeta ["f2", "f1"] ∧ PlainKeys sampleMeta ∧
    ∃ m, GetMandatoryFieldsIn sampleMeta ["f2", "f1"] = Except.ok m ∧
      (∀ n, n ∈ assocKeys m ↔ ∃ key ∈ assocKeys sampleMeta.Fields,
        FieldRequired sampleMeta key true ∧ FieldName sampleMeta key n) ∧
      (∀ n ∈ assocKeys m, ∃ key, assocGet n m = some key ∧
        key ∈ assocKeys sampleMeta.Fields ∧
        FieldRequired sampleMeta key true ∧ FieldName sampleMeta key n) :=
  ⟨rfl, rfl, List.Perm.swap "f1" "f2" [], sampleMeta_plain,
    getMandatoryFields_spec sampleMeta ["f2", "f1"] (List.Perm.swap "f1" "f2" [])
      sampleMeta_plain (fun key hk => (sampleMeta_fields key hk).1)
      (fun key hk _ => (sampleMeta_fields key hk).2)⟩

/-- C3, amended, scenario: the scenario metadata yields exactly
`{"Summary": "f1", "Labels": "f2"}`, and the general statement holds for it. -/
theorem getAllFields_spec_witness :
    GetAllFields sampleMeta = Except.ok [("Summary", "f1"), ("Labels", "f2")] ∧
    RangeOrder sampleMeta ["f1", "f2"] ∧ PlainKeys sampleMeta ∧
    ((∃ m, GetAllFieldsIn sampleMeta ["f1", "f2"] = Except.ok m) ↔
      ∀ key ∈ assocKeys sampleMeta.Fields, ∃ n, FieldName sampleMeta key n) ∧
    ∀ m, GetAllFieldsIn sampleMeta ["f1", "f2"] = Except.ok m →
      (∀ n, n ∈ assocKeys m ↔
        ∃ key ∈ assocKeys sampleMeta.Fields, FieldName sampleMeta key n) ∧
      (∀ n ∈ assocKeys m, ∃ key, assocGet n m = some key ∧
        key ∈ assocKeys sampleMeta.Fields ∧ FieldName sampleMeta key n) :=
  ⟨rfl, List.Perm.refl _, sampleMeta_plain,
    getAllFields_spec sampleMeta ["f1", "f2"] (List.Perm.refl _) sampleMeta_plain⟩

/-- C12, amended, scenarios: a field without `required` and a field whose
`required` is a string make `GetMandatoryFields` fail, the former also in the
opposite order. -/
theorem getMandatoryFields_error_of_required_witness :
    GetMandatoryFields noRequiredMeta = Except.error (Error.keyNotFound "f1/required") ∧
    GetMandatoryFields mistypedRequiredMeta
      = Except.error (Error.typeMismatch "f1/required") ∧
    RangeOrder noRequiredMeta ["f2", "f1"] ∧ PlainKeys noRequiredMeta ∧
    (∃ key ∈ assocKeys noRequiredMeta.Fields, ∀ b, ¬ FieldRequired noRequiredMeta key b) ∧
    ∃ err, GetMandatoryFieldsIn noRequiredMeta ["f2", "f1"] = Except.error err :=
  ⟨rfl, rfl, List.Perm.swap "f1" "f2" [], by unfold PlainKeys; decide,
    ⟨"f1", by decide, fun b hb => by cases hb⟩,
    getMandatoryFields_error_of_required noRequiredMeta ["f2", "f1"]
      (List.Perm.swap "f1" "f2" []) (by unfold PlainKeys; decide)
      ⟨"f1", by decide, fun b hb => by cases hb⟩⟩

/-- C13, amended, scenario: the required field `f1` has no `name`. -/
theorem getMandatoryFields_error_of_required_name_witness :
    GetMandatoryFields requiredNamelessMeta = Except.error (Error.keyNotFound "f1/name") ∧
    RangeOrder requiredNamelessMeta ["f2", "f1"] ∧ PlainKeys requiredNamelessMeta ∧
    (∃ key ∈ assocKeys requiredNamelessMeta.Fields,
      FieldRequired requiredNamelessMeta key true ∧
        ∀ n, ¬ FieldName requiredNamelessMeta key n) ∧
    ∃ err, GetMandatoryFieldsIn requiredNamelessMeta ["f2", "f1"] = Except.error err :=
  ⟨rfl, List.Perm.swap "f1" "f2" [], by unfold PlainKeys; decide,
    ⟨"f1", by decide, rfl, fun n hn => by cases hn⟩,
    getMandatoryFields_error_of_required_name requiredNamelessMeta ["f2", "f1"]
      (List.Perm.swap "f1" "f2" []) (by unfold PlainKeys; decide)
      ⟨"f1", by decide, rfl, fun n hn => by cases hn⟩⟩

/-- C14, amended, on the scenario metadata visited in opposite orders. -/
theorem getAllFields_deterministic_witness :
    RangeOrder sampleMeta ["f1", "f2"] ∧ RangeOrder sampleMeta ["f2", "f1"] ∧
    PlainKeys sampleMeta ∧
    GetAllFieldsIn sampleMeta ["f1", "f2"] = Except.ok [("Summary", "f1"), ("Labels", "f2")] ∧
    ∃ m₂, GetAllFieldsIn sampleMeta ["f2", "f1"] = Except.ok m₂ ∧
      (∀ n, assocGet n m₂ = assocGet n [("Summary", "f1"), ("Labels", "f2")]) ∧
      GetAllFieldsRun sampleMeta ["f1", "f2"]
        = (Except.ok [("Summary", "f1"), ("Labels", "f2")], sampleMeta.Fields) ∧
      GetAllFieldsRun sampleMeta ["f2", "f1"] = (Except.ok m₂, sampleMeta.Fields) :=
  ⟨List.Perm.refl _, List.Perm.swap "f1" "f2" [], sampleMeta_plain, rfl,
    getAllFields_deterministic sampleMeta ["f1", "f2"] ["f2", "f1"] (List.Perm.refl _)
      (List.Perm.swap "f1" "f2" []) sampleMeta_plain sampleMeta_names_differ
      [("Summary", "f1"), ("Labels", "f2")] rfl⟩

/-- C19, amended, scenarios: on the scenario metadata, where the names differ,
the map has the two entries of `Fields`; on the metadata in which `f1` and `f2`
share the name `Summary` it has one entry for the two fields. -/
theorem getAllFields_inverts_witness :
    GetAllFields sampleMeta = Except.ok [("Summary", "f1"), ("Labels", "f2")] ∧
    GetAllFieldsIn sharedNameMeta ["f2", "f1"] = Except.ok [("Summary", "f1")] ∧
    [("Summary", "f1")].length < sharedNameMeta.Fields.length ∧
    RangeOrder sampleMeta ["f2", "f1"] ∧ (assocKeys sampleMeta.Fields).Nodup ∧
    PlainKeys sampleMeta ∧
    (∀ key ∈ assocKeys sampleMeta.Fields, ∃ n, FieldName sampleMeta key n) ∧
    ∃ m, GetAllFieldsIn sampleMeta ["f2", "f1"] = Except.ok m ∧
      ((∀ key ∈ assocKeys sampleMeta.Fields, ∀ other ∈ assocKeys sampleMeta.Fields,
          ∀ n, FieldName sampleMeta key n → FieldName sampleMeta other n → other = key) →
        (∀ key ∈ assocKeys sampleMeta.Fields, ∀ n, FieldName sampleMeta key n →
          assocGet n m = some key) ∧
          m.length = sampleMeta.Fields.length) ∧
      ((∃ key ∈ assocKeys sampleMeta.Fields, ∃ other ∈ assocKeys sampleMeta.Fields,
          ∃ n, other ≠ key ∧ FieldName sampleMeta key n ∧ FieldName sampleMeta other n) →
        m.length < sampleMeta.Fields.length) :=
  ⟨rfl, rfl, by decide, List.Perm.swap "f1" "f2" [], by decide, sampleMeta_plain,
    fun key hk => (sampleMeta_fields key hk).2,
    getAllFields_inverts sampleMeta ["f2", "f1"] (List.Perm.swap "f1" "f2" [])
      (by decide) sampleMeta_plain (fun key hk => (sampleMeta_fields key hk).2)⟩

end Jira
